import Mathlib

/-!
Verification of the `summarize` content-summarization pipeline.

This file gives a shallow embedding, in Lean 4, of the parts of the
TypeScript source that the specification's claims talk about:

* the cost-report aggregation (`sumOrNull`, `buildRunCostReport`);
* the output-language resolver (`resolveOutputLanguage` and its alias table);
* the file-backed media cache (`pruneExpired`, `enforceMaxBytes`, `get`, `put`);
* the slide-extraction tail (`applyMinDurationFilter`, renaming, OCR);
* the slides cache validator (`validateSlidesCache`);
* the input-target resolver (`resolveInputTarget`);
* the daemon request guard for `extractOnly` (modelled from the spec:
  the daemon HTTP server source is not part of the extracted sources).

JavaScript numbers are modelled as `ℚ` (token counts, timestamps) or `Nat`
(byte sizes, clock values) as appropriate; `null`/`undefined` become
`Option`; thrown exceptions become `Except`; the file system and external
hash functions are explicit parameters.
-/

namespace Summarize

/-! ### Association-list helpers

JavaScript objects and `Map`s preserve insertion order for string keys;
`obj[key] = v` updates in place when the key exists and appends otherwise;
`delete obj[key]` removes the (unique) occurrence.  These helpers model
that behaviour on `List (κ × α)`. -/

def lookupKey {κ α : Type} [DecidableEq κ] : List (κ × α) → κ → Option α
  | [], _ => none
  | (k, v) :: rest, key => if k = key then some v else lookupKey rest key

def setKey {κ α : Type} [DecidableEq κ] : List (κ × α) → κ → α → List (κ × α)
  | [], key, v => [(key, v)]
  | (k, w) :: rest, key, v =>
    if k = key then (key, v) :: rest else (k, w) :: setKey rest key v

def eraseKey {κ α : Type} [DecidableEq κ] : List (κ × α) → κ → List (κ × α)
  | [], _ => []
  | (k, w) :: rest, key => if k = key then rest else (k, w) :: eraseKey rest key

def keysOf {κ α : Type} (l : List (κ × α)) : List κ := l.map Prod.fst

/-! ### Cost report (`buildRunCostReport`, `sumOrNull`) -/

inductive LlmProvider
  | xai
  | openai
  | google
deriving DecidableEq

def LlmProvider.toStr : LlmProvider → String
  | .xai => "xai"
  | .openai => "openai"
  | .google => "google"

structure LlmTokenUsage where
  promptTokens : Option Int
  completionTokens : Option Int
  totalTokens : Option Int
deriving DecidableEq

inductive LlmPurpose
  | summary
  | chunkNotes
  | markdown
deriving DecidableEq

structure LlmCall where
  provider : LlmProvider
  model : String
  usage : Option LlmTokenUsage
  purpose : LlmPurpose
deriving DecidableEq

structure PricingEntry where
  inputUsdPer1MTokens : ℚ
  outputUsdPer1MTokens : ℚ
deriving DecidableEq

structure PricingConfig where
  llm : List (String × PricingEntry)
  firecrawlUsdPerRequest : Option ℚ
  apifyUsdPerRequest : Option ℚ
deriving DecidableEq

/-- Embeds `sumOrNull`: sums the finite numeric values of the list, and
returns `null` exactly when no element contributed a number.  The source's
single function works on any JavaScript numbers; here it is polymorphic so
that integral token counts use `Int` and USD estimates use `ℚ` (either way
`Number.isFinite` is always true in the model). -/
def sumOrNull {α : Type} [AddMonoid α] (values : List (Option α)) : Option α :=
  let acc := values.foldl
    (fun (acc : α × Bool) v =>
      match v with
      | some n => (acc.1 + n, true)
      | none => acc)
    (0, false)
  if acc.2 then some acc.1 else none

/-- Embeds `estimateLlmUsd` (the per-row USD estimate; token counts are cast
into `ℚ` for the price arithmetic). -/
def estimateLlmUsd (pricing : Option PricingConfig) (model : String)
    (promptTokens completionTokens : Option Int) : Option ℚ :=
  match (pricing.map PricingConfig.llm).bind (fun l => lookupKey l model) with
  | none => none
  | some entry =>
    match promptTokens, completionTokens with
    | some p, some c =>
      some ((p : ℚ) / 1000000 * entry.inputUsdPer1MTokens
        + (c : ℚ) / 1000000 * entry.outputUsdPer1MTokens)
    | _, _ => none

structure LlmRowAcc where
  provider : LlmProvider
  model : String
  calls : Nat
  promptTokens : List (Option Int)
  completionTokens : List (Option Int)
  totalTokens : List (Option Int)
deriving DecidableEq

structure LlmRow where
  provider : LlmProvider
  model : String
  calls : Nat
  promptTokens : Option Int
  completionTokens : Option Int
  totalTokens : Option Int
  estimatedUsd : Option ℚ
deriving DecidableEq

structure ServiceReport where
  requests : Nat
  estimatedUsd : Option ℚ
deriving DecidableEq

structure RunCostReport where
  llm : List LlmRow
  firecrawl : ServiceReport
  apify : ServiceReport
  totalEstimatedUsd : Option ℚ
deriving DecidableEq

/-- Key of the grouping map in `buildRunCostReport`. -/
def callKey (provider : LlmProvider) (model : String) : String :=
  provider.toStr ++ ":" ++ model

/-- One step of `buildRunCostReport`'s grouping loop over `llmCalls`. -/
def insertCall (m : List (String × LlmRowAcc)) (call : LlmCall) :
    List (String × LlmRowAcc) :=
  let key := callKey call.provider call.model
  let promptTokens := call.usage.bind LlmTokenUsage.promptTokens
  let completionTokens := call.usage.bind LlmTokenUsage.completionTokens
  let totalTokens := call.usage.bind LlmTokenUsage.totalTokens
  match lookupKey m key with
  | none =>
    m ++ [(key,
      { provider := call.provider
        model := call.model
        calls := 1
        promptTokens := [promptTokens]
        completionTokens := [completionTokens]
        totalTokens := [totalTokens] })]
  | some existing =>
    setKey m key
      { existing with
        calls := existing.calls + 1
        promptTokens := existing.promptTokens ++ [promptTokens]
        completionTokens := existing.completionTokens ++ [completionTokens]
        totalTokens := existing.totalTokens ++ [totalTokens] }

def buildLlmMap (llmCalls : List LlmCall) : List (String × LlmRowAcc) :=
  llmCalls.foldl insertCall []

def accToRow (pricing : Option PricingConfig) (row : LlmRowAcc) : LlmRow :=
  let promptTokens := sumOrNull row.promptTokens
  let completionTokens := sumOrNull row.completionTokens
  let totalTokens := sumOrNull row.totalTokens
  { provider := row.provider
    model := row.model
    calls := row.calls
    promptTokens := promptTokens
    completionTokens := completionTokens
    totalTokens := totalTokens
    estimatedUsd := estimateLlmUsd pricing row.model promptTokens completionTokens }

/-- Embeds `buildRunCostReport`. -/
def buildRunCostReport (llmCalls : List LlmCall)
    (firecrawlRequests apifyRequests : Nat) (pricing : Option PricingConfig) :
    RunCostReport :=
  let llm := (buildLlmMap llmCalls).map (fun p => accToRow pricing p.2)
  let firecrawlEstimatedUsd :=
    (pricing.bind PricingConfig.firecrawlUsdPerRequest).map
      (fun r => r * (firecrawlRequests : ℚ))
  let apifyEstimatedUsd :=
    (pricing.bind PricingConfig.apifyUsdPerRequest).map
      (fun r => r * (apifyRequests : ℚ))
  let totalEstimatedUsd :=
    sumOrNull ([sumOrNull (llm.map LlmRow.estimatedUsd), firecrawlEstimatedUsd,
      apifyEstimatedUsd])
  { llm := llm
    firecrawl := { requests := firecrawlRequests, estimatedUsd := firecrawlEstimatedUsd }
    apify := { requests := apifyRequests, estimatedUsd := apifyEstimatedUsd }
    totalEstimatedUsd := totalEstimatedUsd }

/-- The token-column contributions of the calls grouped into the row with
key `key`, in call order. -/
def contributions (llmCalls : List LlmCall) (key : String)
    (col : LlmTokenUsage → Option Int) : List (Option Int) :=
  (llmCalls.filter (fun c => callKey c.provider c.model = key)).map
    (fun c => c.usage.bind col)

/-! #### Lemmas about the association-list helpers -/

lemma lookupKey_of_mem_nodup {κ α : Type} [DecidableEq κ]
    {m : List (κ × α)} {k : κ} {v : α}
    (hnd : (keysOf m).Nodup) (hm : (k, v) ∈ m) : lookupKey m k = some v := by
  induction m with
  | nil => cases hm
  | cons p rest ih =>
    obtain ⟨k', v'⟩ := p
    simp only [keysOf, List.map_cons, List.nodup_cons] at hnd
    rcases List.mem_cons.mp hm with h | h
    · cases h
      simp [lookupKey]
    · have hk : k' ≠ k := by
        intro he
        exact hnd.1 (he ▸ (List.mem_map.mpr ⟨(k, v), h, rfl⟩))
      simp only [lookupKey, if_neg hk]
      exact ih hnd.2 h

lemma lookupKey_setKey {κ α : Type} [DecidableEq κ]
    (m : List (κ × α)) (k0 : κ) (v : α) (key : κ) :
    lookupKey (setKey m k0 v) key =
      if k0 = key then some v else lookupKey m key := by
  induction m with
  | nil => by_cases h : k0 = key <;> simp [setKey, lookupKey, h]
  | cons p rest ih =>
    obtain ⟨k', v'⟩ := p
    simp only [setKey]
    by_cases h : k' = k0
    · subst h
      simp only [if_pos rfl, lookupKey]
      by_cases hkey : k' = key
      · subst hkey; simp
      · simp [hkey, fun he : k' = key => hkey he]
    · simp only [if_neg h, lookupKey]
      by_cases hkey : k' = key
      · subst hkey
        have hne : k0 ≠ k' := fun he => h he.symm
        simp [hne]
      · simp [hkey, ih]

lemma lookupKey_append_single {κ α : Type} [DecidableEq κ]
    (m : List (κ × α)) (k0 : κ) (v : α) (key : κ) :
    lookupKey (m ++ [(k0, v)]) key =
      match lookupKey m key with
      | some w => some w
      | none => if k0 = key then some v else none := by
  induction m with
  | nil => simp [lookupKey]
  | cons p rest ih =>
    obtain ⟨k', v'⟩ := p
    by_cases h : k' = key <;> simp [lookupKey, h, ih]

lemma keysOf_setKey_of_mem {κ α : Type} [DecidableEq κ]
    {m : List (κ × α)} {k0 : κ} (v : α) (hk : k0 ∈ keysOf m) :
    keysOf (setKey m k0 v) = keysOf m := by
  induction m with
  | nil => cases hk
  | cons p rest ih =>
    obtain ⟨k', v'⟩ := p
    by_cases h : k' = k0
    · subst h; simp [setKey, keysOf]
    · have h' : k0 ∈ keysOf rest := by
        simp only [keysOf, List.map_cons, List.mem_cons] at hk
        rcases hk with h1 | h1
        · exact absurd h1.symm h
        · exact h1
      have ih' := ih h'
      simp only [keysOf, List.map_cons] at ih' ⊢
      simp [setKey, h, ih']

lemma lookupKey_eq_none_iff {κ α : Type} [DecidableEq κ]
    (m : List (κ × α)) (key : κ) :
    lookupKey m key = none ↔ key ∉ keysOf m := by
  induction m with
  | nil => simp [lookupKey, keysOf]
  | cons p rest ih =>
    obtain ⟨k', v'⟩ := p
    by_cases h : k' = key
    · simp [lookupKey, keysOf, h]
    · simp only [lookupKey, if_neg h, keysOf, List.map_cons]
      rw [ih]
      constructor
      · intro hk hc
        rcases List.mem_cons.mp hc with he | hm
        · exact h he.symm
        · exact hk hm
      · intro hk hm
        exact hk (List.mem_cons.mpr (Or.inr hm))

/-! #### Characterization of `sumOrNull` -/

lemma sumOrNull_foldl {α : Type} [AddMonoid α] (l : List (Option α)) (a : α) (b : Bool) :
    l.foldl
      (fun (acc : α × Bool) v =>
        match v with
        | some n => (acc.1 + n, true)
        | none => acc)
      (a, b) = (a + (l.filterMap id).sum, b || l.any Option.isSome) := by
  induction l generalizing a b with
  | nil => simp
  | cons x xs ih =>
    cases x with
    | none => simpa using ih a b
    | some n =>
      simp only [List.foldl_cons, List.filterMap_cons_some, List.any_cons]
      rw [ih]
      simp [add_assoc]

lemma sumOrNull_eq {α : Type} [AddMonoid α] (l : List (Option α)) :
    sumOrNull l =
      if l.any Option.isSome then some ((l.filterMap id).sum) else none := by
  unfold sumOrNull
  rw [sumOrNull_foldl]
  simp

lemma sumOrNull_eq_none_iff {α : Type} [AddMonoid α] (l : List (Option α)) :
    sumOrNull l = none ↔ ∀ v ∈ l, v = none := by
  rw [sumOrNull_eq]
  by_cases h : l.any Option.isSome
  · rw [if_pos h]
    simp only [List.any_eq_true] at h
    obtain ⟨v, hv, hsome⟩ := h
    refine ⟨fun hco => absurd hco (by simp), fun hall => ?_⟩
    exfalso
    rw [hall v hv] at hsome
    simp at hsome
  · rw [if_neg h]
    simp only [List.any_eq_true, not_exists, not_and] at h
    refine ⟨fun _ v hv => ?_, fun _ => rfl⟩
    cases v with
    | none => rfl
    | some x => exact absurd (by simp) (h (some x) hv)

/-! #### The grouping loop of `buildRunCostReport` -/

def accMatches (llmCalls : List LlmCall) (key : String) (acc : LlmRowAcc) : Prop :=
  key = callKey acc.provider acc.model ∧
  acc.promptTokens = contributions llmCalls key LlmTokenUsage.promptTokens ∧
  acc.completionTokens = contributions llmCalls key LlmTokenUsage.completionTokens ∧
  acc.totalTokens = contributions llmCalls key LlmTokenUsage.totalTokens

def mapWF (m : List (String × LlmRowAcc)) (llmCalls : List LlmCall) : Prop :=
  (keysOf m).Nodup ∧
  (∀ key acc, lookupKey m key = some acc → accMatches llmCalls key acc) ∧
  (∀ key, lookupKey m key = none →
    llmCalls.filter (fun c => callKey c.provider c.model = key) = [])

lemma contributions_snoc (llmCalls : List LlmCall) (c : LlmCall) (key : String)
    (col : LlmTokenUsage → Option Int) :
    contributions (llmCalls ++ [c]) key col =
      contributions llmCalls key col ++
        (if callKey c.provider c.model = key then [c.usage.bind col] else []) := by
  unfold contributions
  rw [List.filter_append]
  by_cases h : callKey c.provider c.model = key <;> simp [h]

def freshAcc (c : LlmCall) : LlmRowAcc :=
  { provider := c.provider
    model := c.model
    calls := 1
    promptTokens := [c.usage.bind LlmTokenUsage.promptTokens]
    completionTokens := [c.usage.bind LlmTokenUsage.completionTokens]
    totalTokens := [c.usage.bind LlmTokenUsage.totalTokens] }

def extendAcc (existing : LlmRowAcc) (c : LlmCall) : LlmRowAcc :=
  { existing with
    calls := existing.calls + 1
    promptTokens := existing.promptTokens ++ [c.usage.bind LlmTokenUsage.promptTokens]
    completionTokens :=
      existing.completionTokens ++ [c.usage.bind LlmTokenUsage.completionTokens]
    totalTokens := existing.totalTokens ++ [c.usage.bind LlmTokenUsage.totalTokens] }

lemma insertCall_lookup_none {m : List (String × LlmRowAcc)} {c : LlmCall}
    (h : lookupKey m (callKey c.provider c.model) = none) :
    insertCall m c = m ++ [(callKey c.provider c.model, freshAcc c)] := by
  simp only [insertCall, h, freshAcc]

lemma insertCall_lookup_some {m : List (String × LlmRowAcc)} {c : LlmCall}
    {existing : LlmRowAcc}
    (h : lookupKey m (callKey c.provider c.model) = some existing) :
    insertCall m c = setKey m (callKey c.provider c.model) (extendAcc existing c) := by
  simp only [insertCall, h, extendAcc]

lemma mapWF_insertCall {m : List (String × LlmRowAcc)} {pre : List LlmCall}
    (hwf : mapWF m pre) (c : LlmCall) :
    mapWF (insertCall m c) (pre ++ [c]) := by
  obtain ⟨hnd, hsome, hnone⟩ := hwf
  cases hl : lookupKey m (callKey c.provider c.model) with
  | none =>
    rw [insertCall_lookup_none hl]
    refine ⟨?_, ?_, ?_⟩
    · simp only [keysOf, List.map_append, List.map_cons, List.map_nil]
      rw [List.nodup_append]
      refine ⟨hnd, List.nodup_singleton _, ?_⟩
      intro x hx hx'
      simp only [List.mem_singleton] at hx'
      subst hx'
      exact ((lookupKey_eq_none_iff m _).mp hl) hx
    · intro key acc hla
      rw [lookupKey_append_single] at hla
      cases hlm : lookupKey m key with
      | some w =>
        rw [hlm] at hla
        simp only at hla
        cases hla
        have hkey : callKey c.provider c.model ≠ key := by
          intro he; rw [← he, hl] at hlm; cases hlm
        obtain ⟨h1, h2, h3, h4⟩ := hsome key acc hlm
        refine ⟨h1, ?_, ?_, ?_⟩ <;>
          · rw [contributions_snoc]
            simp [h2, h3, h4, if_neg hkey]
      | none =>
        rw [hlm] at hla
        simp only at hla
        by_cases hkey : callKey c.provider c.model = key
        · subst hkey
          simp only [if_pos rfl] at hla
          cases hla
          have hfilter := hnone _ hlm
          refine ⟨rfl, ?_, ?_, ?_⟩ <;>
            · rw [contributions_snoc]
              simp [contributions, hfilter, freshAcc]
        · rw [if_neg hkey] at hla
          cases hla
    · intro key hla
      rw [lookupKey_append_single] at hla
      cases hlm : lookupKey m key with
      | some w => rw [hlm] at hla; cases hla
      | none =>
        rw [hlm] at hla
        simp only at hla
        by_cases hkey : callKey c.provider c.model = key
        · rw [if_pos hkey] at hla; cases hla
        · rw [List.filter_append]
          simp [hnone key hlm, hkey]
  | some existing =>
    rw [insertCall_lookup_some hl]
    have hmem : callKey c.provider c.model ∈ keysOf m := by
      by_contra hk
      rw [← lookupKey_eq_none_iff] at hk
      rw [hk] at hl; cases hl
    refine ⟨?_, ?_, ?_⟩
    · rw [keysOf_setKey_of_mem _ hmem]; exact hnd
    · intro key acc hla
      rw [lookupKey_setKey] at hla
      by_cases hkey : callKey c.provider c.model = key
      · subst hkey
        rw [if_pos rfl] at hla
        cases hla
        obtain ⟨h1, h2, h3, h4⟩ := hsome _ existing hl
        refine ⟨h1, ?_, ?_, ?_⟩ <;>
          · rw [contributions_snoc]
            simp [h2, h3, h4, extendAcc]
      · rw [if_neg hkey] at hla
        obtain ⟨h1, h2, h3, h4⟩ := hsome key acc hla
        refine ⟨h1, ?_, ?_, ?_⟩ <;>
          · rw [contributions_snoc]
            simp [h2, h3, h4, if_neg hkey]
    · intro key hla
      rw [lookupKey_setKey] at hla
      by_cases hkey : callKey c.provider c.model = key
      · rw [if_pos hkey] at hla; cases hla
      · rw [if_neg hkey] at hla
        rw [List.filter_append]
        simp [hnone key hla, hkey]

lemma mapWF_foldl (calls : List LlmCall) :
    ∀ (pre : List LlmCall) (m : List (String × LlmRowAcc)),
      mapWF m pre → mapWF (calls.foldl insertCall m) (pre ++ calls) := by
  induction calls with
  | nil => intro pre m h; simpa using h
  | cons c cs ih =>
    intro pre m h
    have hstep := mapWF_insertCall h c
    have := ih (pre ++ [c]) (insertCall m c) hstep
    simpa [List.append_assoc] using this

lemma buildLlmMap_wf (llmCalls : List LlmCall) :
    mapWF (buildLlmMap llmCalls) llmCalls := by
  have base : mapWF [] [] := by
    refine ⟨List.nodup_nil, ?_, ?_⟩
    · intro key acc h; cases h
    · intro key _; rfl
  have := mapWF_foldl llmCalls [] [] base
  simpa [buildLlmMap] using this

/-- `C4` (amended).  In the report built by `buildRunCostReport`, each
`(provider, model)` row aggregates every token column with `sumOrNull` over
exactly the contributions of the calls grouped into that row; in particular
a column is `null` if and only if every contributing call has `null` there
(a `null` contribution is skipped, it does not poison the sum and it is not
counted as 0). -/
theorem buildRunCostReport_null_columns (llmCalls : List LlmCall)
    (firecrawlRequests apifyRequests : Nat) (pricing : Option PricingConfig)
    (row : LlmRow)
    (hrow : row ∈ (buildRunCostReport llmCalls firecrawlRequests apifyRequests
      pricing).llm) :
    (row.promptTokens =
        sumOrNull (contributions llmCalls (callKey row.provider row.model)
          LlmTokenUsage.promptTokens) ∧
      row.completionTokens =
        sumOrNull (contributions llmCalls (callKey row.provider row.model)
          LlmTokenUsage.completionTokens) ∧
      row.totalTokens =
        sumOrNull (contributions llmCalls (callKey row.provider row.model)
          LlmTokenUsage.totalTokens)) ∧
    ((row.promptTokens = none ↔
        ∀ v ∈ contributions llmCalls (callKey row.provider row.model)
          LlmTokenUsage.promptTokens, v = none) ∧
      (row.completionTokens = none ↔
        ∀ v ∈ contributions llmCalls (callKey row.provider row.model)
          LlmTokenUsage.completionTokens, v = none) ∧
      (row.totalTokens = none ↔
        ∀ v ∈ contributions llmCalls (callKey row.provider row.model)
          LlmTokenUsage.totalTokens, v = none)) := by
  obtain ⟨hnd, hsome, _⟩ := buildLlmMap_wf llmCalls
  simp only [buildRunCostReport, List.mem_map] at hrow
  obtain ⟨⟨key, acc⟩, hmem, hacc⟩ := hrow
  have hlook := lookupKey_of_mem_nodup hnd hmem
  obtain ⟨h1, h2, h3, h4⟩ := hsome key acc hlook
  have hprov : row.provider = acc.provider := by rw [← hacc]; rfl
  have hmodel : row.model = acc.model := by rw [← hacc]; rfl
  have hkey : callKey row.provider row.model = key := by
    rw [hprov, hmodel, h1]
  have hp : row.promptTokens = sumOrNull acc.promptTokens := by rw [← hacc]; rfl
  have hc : row.completionTokens = sumOrNull acc.completionTokens := by
    rw [← hacc]; rfl
  have ht : row.totalTokens = sumOrNull acc.totalTokens := by rw [← hacc]; rfl
  rw [hkey, hp, hc, ht, h2, h3, h4]
  exact ⟨⟨rfl, rfl, rfl⟩,
    sumOrNull_eq_none_iff _, sumOrNull_eq_none_iff _, sumOrNull_eq_none_iff _⟩

/-- Two calls to the same `(provider, model)`; one reports full usage,
the other reports no usage (`null` in every token column). -/
def demoUsage : LlmTokenUsage :=
  { promptTokens := some 5, completionTokens := some 7, totalTokens := some 12 }

def demoCalls : List LlmCall :=
  [{ provider := .openai, model := "gpt-5-mini", usage := some demoUsage,
     purpose := .summary },
   { provider := .openai, model := "gpt-5-mini", usage := none,
     purpose := .chunkNotes }]

/-- `C4` counterexample: the claim as stated says that a `null` token count
in any contributing call forces the aggregated column to `null`; on
`demoCalls` the second call contributes `null` in every column, yet the
aggregated prompt column is `some 5`, not `null`. -/
theorem buildRunCostReport_null_claim_cex :
    ¬ (∀ row ∈ (buildRunCostReport demoCalls 0 0 none).llm,
        (∃ c ∈ demoCalls,
          callKey c.provider c.model = callKey row.provider row.model ∧
            c.usage.bind LlmTokenUsage.promptTokens = none) →
          row.promptTokens = none) := by
  decide

/-- Witness for `buildRunCostReport_null_columns` at `demoCalls`. -/
theorem buildRunCostReport_null_columns_witness :
    ({ provider := .openai, model := "gpt-5-mini", calls := 2,
       promptTokens := some 5, completionTokens := some 7,
       totalTokens := some 12, estimatedUsd := none } : LlmRow) ∈
        (buildRunCostReport demoCalls 0 0 none).llm ∧
      (({ provider := .openai, model := "gpt-5-mini", calls := 2,
          promptTokens := some 5, completionTokens := some 7,
          totalTokens := some 12, estimatedUsd := none } : LlmRow).promptTokens =
        sumOrNull (contributions demoCalls (callKey .openai "gpt-5-mini")
          LlmTokenUsage.promptTokens)) := by
  refine ⟨by decide, ?_⟩
  exact (buildRunCostReport_null_columns demoCalls 0 0 none _ (by decide)).1.1

/-! ### Output-language resolver (`resolveOutputLanguage`) -/

structure OutputLanguage where
  tag : String
  label : String
deriving DecidableEq

/-- The `LANGUAGE_ALIASES` table, in source order. -/
def LANGUAGE_ALIASES : List (String × OutputLanguage) :=
  [("auto", { tag := "auto", label := "auto" }),
   ("en", { tag := "en", label := "English" }),
   ("en-us", { tag := "en-US", label := "English" }),
   ("en-gb", { tag := "en-GB", label := "English" }),
   ("english", { tag := "en", label := "English" }),
   ("de", { tag := "de", label := "German" }),
   ("de-de", { tag := "de-DE", label := "German" }),
   ("german", { tag := "de", label := "German" }),
   ("deutsch", { tag := "de", label := "German" }),
   ("es", { tag := "es", label := "Spanish" }),
   ("spanish", { tag := "es", label := "Spanish" }),
   ("espanol", { tag := "es", label := "Spanish" }),
   ("es-es", { tag := "es-ES", label := "Spanish" }),
   ("es-mx", { tag := "es-MX", label := "Spanish" }),
   ("fr", { tag := "fr", label := "French" }),
   ("french", { tag := "fr", label := "French" }),
   ("it", { tag := "it", label := "Italian" }),
   ("italian", { tag := "it", label := "Italian" }),
   ("pt", { tag := "pt", label := "Portuguese" }),
   ("portuguese", { tag := "pt", label := "Portuguese" }),
   ("pt-br", { tag := "pt-BR", label := "Portuguese (Brazil)" }),
   ("pt-pt", { tag := "pt-PT", label := "Portuguese (Portugal)" }),
   ("nl", { tag := "nl", label := "Dutch" }),
   ("dutch", { tag := "nl", label := "Dutch" }),
   ("sv", { tag := "sv", label := "Swedish" }),
   ("swedish", { tag := "sv", label := "Swedish" }),
   ("no", { tag := "no", label := "Norwegian" }),
   ("norwegian", { tag := "no", label := "Norwegian" }),
   ("da", { tag := "da", label := "Danish" }),
   ("danish", { tag := "da", label := "Danish" }),
   ("fi", { tag := "fi", label := "Finnish" }),
   ("finnish", { tag := "fi", label := "Finnish" }),
   ("pl", { tag := "pl", label := "Polish" }),
   ("polish", { tag := "pl", label := "Polish" }),
   ("cs", { tag := "cs", label := "Czech" }),
   ("czech", { tag := "cs", label := "Czech" }),
   ("tr", { tag := "tr", label := "Turkish" }),
   ("turkish", { tag := "tr", label := "Turkish" }),
   ("ru", { tag := "ru", label := "Russian" }),
   ("russian", { tag := "ru", label := "Russian" }),
   ("uk", { tag := "uk", label := "Ukrainian" }),
   ("ukrainian", { tag := "uk", label := "Ukrainian" }),
   ("zh", { tag := "zh", label := "Chinese" }),
   ("chinese", { tag := "zh", label := "Chinese" }),
   ("zh-cn", { tag := "zh-CN", label := "Chinese (Simplified)" }),
   ("zh-hans", { tag := "zh-Hans", label := "Chinese (Simplified)" }),
   ("zh-tw", { tag := "zh-TW", label := "Chinese (Traditional)" }),
   ("zh-hant", { tag := "zh-Hant", label := "Chinese (Traditional)" }),
   ("ja", { tag := "ja", label := "Japanese" }),
   ("japanese", { tag := "ja", label := "Japanese" }),
   ("ko", { tag := "ko", label := "Korean" }),
   ("korean", { tag := "ko", label := "Korean" }),
   ("ar", { tag := "ar", label := "Arabic" }),
   ("arabic", { tag := "ar", label := "Arabic" }),
   ("hi", { tag := "hi", label := "Hindi" }),
   ("hindi", { tag := "hi", label := "Hindi" })]

/-- JavaScript `String.prototype.trim`, written over the character list so
that it evaluates by kernel reduction. -/
def jsTrim (s : String) : String :=
  String.mk
    (((s.data.dropWhile Char.isWhitespace).reverse.dropWhile
      Char.isWhitespace).reverse)

/-- Character-list take, modelling `String.prototype.slice(0, n)`. -/
def strTake (s : String) (n : Nat) : String :=
  String.mk (s.data.take n)

/-- Split at every character satisfying `p`, keeping empty pieces (the
callers filter them out, which makes this equivalent to splitting on runs
as the source's regex does). -/
def splitOnSep (p : Char → Bool) : List Char → List (List Char)
  | [] => [[]]
  | c :: rest =>
    if p c then [] :: splitOnSep p rest
    else
      match splitOnSep p rest with
      | [] => [[c]]
      | w :: ws => (c :: w) :: ws

def isLangKeep (c : Char) : Bool :=
  (('a' ≤ c && c ≤ 'z') || ('0' ≤ c && c ≤ '9') || c = '-')

/-- Collapse every run of dashes into a single dash (the dash-run global
replacement in the source). -/
def collapseDashes : List Char → List Char
  | [] => []
  | c :: rest =>
    match collapseDashes rest with
    | [] => [c]
    | d :: ds => if c = '-' && d = '-' then d :: ds else c :: d :: ds

def dropEdgeDashes (l : List Char) : List Char :=
  ((l.dropWhile (· = '-')).reverse.dropWhile (· = '-')).reverse

/-- The `compact` normalization of `resolveOutputLanguage`: lower-case,
underscore to dash, every run of characters outside `a-z`, `0-9`, dash
becomes a dash (replacing a run by one dash and then collapsing dash runs
equals replacing each character and then collapsing), collapse dash runs,
strip edge dashes.  ASCII lower-casing models JavaScript `toLowerCase`. -/
def normalizeLang (s : String) : String :=
  let lowered := s.data.map Char.toLower
  let underscored := lowered.map (fun c => if c = '_' then '-' else c)
  let dashed := underscored.map (fun c => if isLangKeep c then c else '-')
  String.mk (dropEdgeDashes (collapseDashes dashed))

/-- Embeds `titleCaseAscii`. -/
def titleCaseAscii (value : String) : String :=
  let words := ((splitOnSep (fun c => c.isWhitespace || c = '-')
    value.data).map (fun w => jsTrim (String.mk w))).filter (fun w => w ≠ "")
  if words = [] then "English"
  else
    String.intercalate " "
      (words.map (fun w =>
        match w.data with
        | [] => ""
        | c :: rest => String.mk (c.toUpper :: rest.map Char.toLower)))

/-- Embeds `resolveOutputLanguage`. -/
def resolveOutputLanguage (raw : Option String) : OutputLanguage :=
  let normalized := jsTrim (raw.getD "")
  if normalized = "" then { tag := "auto", label := "auto" }
  else
    let compact := normalizeLang normalized
    match lookupKey LANGUAGE_ALIASES compact with
    | some known => known
    | none =>
      { tag := if compact.data.length > 0 then strTake compact 32 else "en"
        label := strTake (titleCaseAscii normalized) 48 }

lemma mem_of_lookupKey {κ α : Type} [DecidableEq κ]
    {m : List (κ × α)} {k : κ} {v : α} (h : lookupKey m k = some v) :
    (k, v) ∈ m := by
  induction m with
  | nil => cases h
  | cons p rest ih =>
    obtain ⟨k', v'⟩ := p
    by_cases hk : k' = k
    · subst hk
      simp only [lookupKey, if_pos rfl] at h
      cases h
      exact List.mem_cons_self _ _
    · simp only [lookupKey, if_neg hk] at h
      exact List.mem_cons_of_mem _ (ih h)

lemma resolveOutputLanguage_known {x : String} {e : OutputLanguage}
    (h : lookupKey LANGUAGE_ALIASES (normalizeLang (jsTrim x)) = some e) :
    resolveOutputLanguage (some x) = e := by
  unfold resolveOutputLanguage
  simp only [Option.getD_some]
  by_cases hz : jsTrim x = ""
  · rw [hz] at h
    have : lookupKey LANGUAGE_ALIASES (normalizeLang "") = none := by decide
    rw [this] at h
    cases h
  · rw [if_neg hz, h]

/-- Every alias entry whose tag has no region or script subtag (its tag is
already lower-case) has a label that resolves back to the very same entry. -/
lemma aliasLabelRoundTrip :
    (LANGUAGE_ALIASES.all (fun p =>
      !(p.2.tag == String.mk (p.2.tag.data.map Char.toLower)) ||
        resolveOutputLanguage (some p.2.label) == p.2)) = true := by
  decide

/-- `C9` (amended).  Resolving is stable on known inputs whose alias entry
carries a bare (all-lower-case, region-free) tag: feeding the resolved label
back into `resolveOutputLanguage` reproduces exactly the same `tag`/`label`
pair.  (For region-specific aliases such as `en-us` the label collapses to
the base language and stability fails; see the counterexample.) -/
theorem resolveOutputLanguage_stable_on_bare_known (x : String)
    (e : OutputLanguage)
    (hk : lookupKey LANGUAGE_ALIASES (normalizeLang (jsTrim x)) = some e)
    (hbare : e.tag = String.mk (e.tag.data.map Char.toLower)) :
    resolveOutputLanguage (some ((resolveOutputLanguage (some x)).label)) =
      resolveOutputLanguage (some x) := by
  rw [resolveOutputLanguage_known hk]
  have hmem := mem_of_lookupKey hk
  have hall := List.all_eq_true.mp aliasLabelRoundTrip _ hmem
  rw [Bool.or_eq_true, Bool.not_eq_true', beq_eq_false_iff_ne] at hall
  rcases hall with hne | hrt
  · exact absurd hbare hne
  · exact beq_iff_eq.mp hrt

/-- `C9` counterexample: `en-us` is a known input (its normalized form is an
alias key), but resolving its resolved label `English` yields tag `en`, not
the original `en-US`, so resolution is not stable on all known inputs. -/
theorem resolveOutputLanguage_stability_cex :
    (lookupKey LANGUAGE_ALIASES (normalizeLang (jsTrim "en-us"))).isSome = true
      ∧ resolveOutputLanguage
          (some ((resolveOutputLanguage (some "en-us")).label)) ≠
        resolveOutputLanguage (some "en-us") := by
  constructor
  · decide
  · decide

/-- Witness for `resolveOutputLanguage_stable_on_bare_known` at `english`. -/
theorem resolveOutputLanguage_stable_witness :
    lookupKey LANGUAGE_ALIASES (normalizeLang (jsTrim "english")) =
        some { tag := "en", label := "English" } ∧
      resolveOutputLanguage
          (some ((resolveOutputLanguage (some "english")).label)) =
        resolveOutputLanguage (some "english") := by
  refine ⟨by decide, ?_⟩
  exact resolveOutputLanguage_stable_on_bare_known "english"
    { tag := "en", label := "English" } (by decide) (by decide)

/-! ### Media cache (`media-cache.ts`)

The cache directory's file system is modelled as a partial map from file
names to file data (size and content hash); `fs.stat` failure is the map
returning `none`.  The SHA-256 of a URL (`hashKey`) is an opaque function
parameter of the configuration. -/

inductive MediaCacheVerifyMode
  | vnone
  | vsize
  | vhash
deriving DecidableEq

structure FileData where
  size : Nat
  hash : String
deriving DecidableEq

structure MCEntry where
  url : String
  fileName : String
  sizeBytes : Option Nat
  sha256 : Option String
  mediaType : Option String
  filename : Option String
  createdAtMs : Nat
  lastAccessAtMs : Nat
  expiresAtMs : Option Nat
deriving DecidableEq

structure CacheState where
  entries : List (String × MCEntry)
  fs : String → Option FileData

structure MCConfig where
  maxBytes : Nat
  ttlMs : Nat
  verify : MediaCacheVerifyMode
  hashKey : String → String

/-- Embeds `shouldCacheUrl` (the case-insensitive `^https?:` test on the
trimmed URL). -/
def shouldCacheUrl (url : String) : Bool :=
  let t := (jsTrim url).data.map Char.toLower
  List.isPrefixOf "http:".data t || List.isPrefixOf "https:".data t

def isAsciiAlnum (c : Char) : Bool :=
  ('a' ≤ c && c ≤ 'z') || ('A' ≤ c && c ≤ 'Z') || ('0' ≤ c && c ≤ '9')

/-- The case-insensitive end-anchored extension match in `resolveExtension`:
it succeeds exactly when the name ends in a dot followed by two to five
alphanumeric characters, returning that lower-cased suffix with its dot. -/
def extFromName (safeName : List Char) : Option String :=
  let revRun := safeName.reverse.takeWhile isAsciiAlnum
  match safeName.reverse.drop revRun.length with
  | '.' :: _ =>
    if 2 ≤ revRun.length && revRun.length ≤ 5 then
      some (String.mk ('.' :: (revRun.reverse.map Char.toLower)))
    else none
  | _ => none

/-- `sub` occurs as a contiguous run inside `l` (JavaScript
`String.prototype.includes`). -/
def listIncludes (sub : List Char) : List Char → Bool
  | [] => List.isPrefixOf sub []
  | c :: rest => List.isPrefixOf sub (c :: rest) || listIncludes sub rest

def strIncludes (s sub : String) : Bool :=
  listIncludes sub.data s.data

/-- Embeds `resolveExtension`. -/
def resolveExtension (filename : Option String) (mediaType : Option String) :
    String :=
  let safeName := jsTrim (filename.getD "")
  match extFromName safeName.data with
  | some ext => ext
  | none =>
    if mediaType.getD "" = "" then ".bin"
    else
      let normalized := String.mk ((mediaType.getD "").data.map Char.toLower)
      if strIncludes normalized "audio/mpeg" then ".mp3"
      else if strIncludes normalized "audio/mp4" then ".m4a"
      else if strIncludes normalized "audio/ogg" then ".ogg"
      else if strIncludes normalized "audio/wav" then ".wav"
      else if strIncludes normalized "audio/flac" then ".flac"
      else if strIncludes normalized "video/mp4" then ".mp4"
      else if strIncludes normalized "video/webm" then ".webm"
      else ".bin"

def fsErase (fs : String → Option FileData) (name : String) :
    String → Option FileData :=
  fun p => if p = name then none else fs p

/-- Embeds `removeEntry`: drop the key from the index and delete the payload
file. -/
def removeEntry (st : CacheState) (key fileName : String) : CacheState :=
  { entries := eraseKey st.entries key, fs := fsErase st.fs fileName }

def isExpired (e : MCEntry) (now : Nat) : Bool :=
  match e.expiresAtMs with
  | some t => t ≤ now
  | none => false

/-- The loop body of `pruneExpired`, iterating over a snapshot of the
entries. -/
def pruneLoop (now : Nat) : List (String × MCEntry) → CacheState → CacheState
  | [], st => st
  | (k, e) :: rest, st =>
    pruneLoop now rest
      (if isExpired e now then removeEntry st k e.fileName else st)

/-- Embeds `pruneExpired`. -/
def pruneExpired (st : CacheState) (now : Nat) : CacheState :=
  pruneLoop now st.entries st

def entrySize (e : MCEntry) : Nat := e.sizeBytes.getD 0

def sumSizes (l : List (String × MCEntry)) : Nat :=
  (l.map (fun p => entrySize p.2)).sum

/-- The `computeSizeBytes` refresh pass of `enforceMaxBytes`: entries whose
`sizeBytes` is not a number get it from `fs.stat` (or keep `null` when the
stat fails). -/
def refreshSizes (st : CacheState) : List (String × MCEntry) :=
  st.entries.map (fun p =>
    if p.2.sizeBytes.isSome then p
    else (p.1, { p.2 with sizeBytes := (st.fs p.2.fileName).map FileData.size }))

/-- Stable insertion into a list ascending by `lastAccessAtMs`. -/
def insertLA (x : String × MCEntry) :
    List (String × MCEntry) → List (String × MCEntry)
  | [] => [x]
  | y :: ys =>
    if y.2.lastAccessAtMs ≤ x.2.lastAccessAtMs then y :: insertLA x ys
    else x :: y :: ys

/-- Stable sort ascending by `lastAccessAtMs`, the order of the eviction
pass (JavaScript's sort with comparator `a.lastAccessAtMs - b.lastAccessAtMs`
is stable and ascending). -/
def sortLA : List (String × MCEntry) → List (String × MCEntry)
  | [] => []
  | x :: xs => insertLA x (sortLA xs)

/-- The eviction loop of `enforceMaxBytes`: walk the sorted entries, stop as
soon as the running total is within the cap, otherwise evict and subtract
the entry's size (0 when unknown). -/
def evictLoop (maxBytes : Nat) :
    List (String × MCEntry) → CacheState → Nat → CacheState
  | [], st, _ => st
  | (k, e) :: rest, st, total =>
    if total ≤ maxBytes then st
    else evictLoop maxBytes rest (removeEntry st k e.fileName)
      (total - entrySize e)

/-- Embeds `enforceMaxBytes`.  `maxBytes : Nat` is always finite, and
`maxBytes ≤ 0` is `maxBytes = 0`. -/
def enforceMaxBytes (cfg : MCConfig) (st : CacheState) : CacheState :=
  if cfg.maxBytes = 0 then st
  else if st.entries = [] then st
  else
    let entries' := refreshSizes st
    let st' : CacheState := { st with entries := entries' }
    let total := sumSizes entries'
    if total ≤ cfg.maxBytes then st'
    else evictLoop cfg.maxBytes (sortLA entries') st' total

/-- Embeds `get`.  The returned entry models `normalizeEntry` (whose
`filePath` is the cache-dir join of `fileName`). -/
def mcGet (cfg : MCConfig) (st : CacheState) (now : Nat) (url : String) :
    Option MCEntry × CacheState :=
  if !shouldCacheUrl url then (none, st)
  else
    let st1 := pruneExpired st now
    let key := cfg.hashKey url
    match lookupKey st1.entries key with
    | none => (none, st1)
    | some entry =>
      match st1.fs entry.fileName with
      | none => (none, removeEntry st1 key entry.fileName)
      | some file =>
        if cfg.verify = .vsize ∧ entry.sizeBytes.isSome ∧
            entry.sizeBytes ≠ some file.size then
          (none, removeEntry st1 key entry.fileName)
        else if cfg.verify = .vhash ∧
            (∃ s, entry.sha256 = some s ∧ s ≠ file.hash) then
          (none, removeEntry st1 key entry.fileName)
        else
          let entry1 :=
            if cfg.verify = .vhash then { entry with sha256 := some file.hash }
            else entry
          let entry2 :=
            { entry1 with sizeBytes := some file.size, lastAccessAtMs := now }
          (some entry2, { st1 with entries := setKey st1.entries key entry2 })

/-- Embeds `moveFile` on the file-system map (rename with copy fallback has
the same end state). -/
def moveFile (fs : String → Option FileData) (fromPath toPath : String) :
    String → Option FileData :=
  if fromPath = toPath then fs
  else fun p =>
    if p = toPath then fs fromPath
    else if p = fromPath then none
    else fs p

/-- Embeds `put`.  A failing `fs.stat` on the source path throws, which is
the `Except.error` case. -/
def mcPut (cfg : MCConfig) (st : CacheState) (now : Nat)
    (url filePath : String) (mediaType filename : Option String) :
    Except String (Option MCEntry × CacheState) :=
  if !shouldCacheUrl url then .ok (none, st)
  else
    let st1 := pruneExpired st now
    let key := cfg.hashKey url
    let fileName := key ++ resolveExtension filename mediaType
    match st1.fs filePath with
    | none => .error "stat failed"
    | some sourceStat =>
      if 0 < cfg.maxBytes ∧ cfg.maxBytes < sourceStat.size then .ok (none, st1)
      else
        let entry : MCEntry :=
          { url := url
            fileName := fileName
            sizeBytes := some sourceStat.size
            sha256 := if cfg.verify = .vhash then some sourceStat.hash else none
            mediaType := mediaType
            filename := filename
            createdAtMs := now
            lastAccessAtMs := now
            expiresAtMs := if 0 < cfg.ttlMs then some (now + cfg.ttlMs) else none }
        let st2 : CacheState :=
          { entries := setKey st1.entries key entry
            fs := moveFile st1.fs filePath fileName }
        let st3 := enforceMaxBytes cfg st2
        .ok (lookupKey st3.entries key, st3)

/-! #### Lemmas about erasure, pruning, sorting and eviction -/

lemma eraseKey_sublist {κ α : Type} [DecidableEq κ]
    (l : List (κ × α)) (k : κ) : (eraseKey l k).Sublist l := by
  induction l with
  | nil => simp [eraseKey]
  | cons p rest ih =>
    obtain ⟨k', v'⟩ := p
    by_cases h : k' = k
    · simp only [eraseKey, if_pos h]
      exact (List.sublist_cons_self _ _)
    · simp only [eraseKey, if_neg h]
      exact ih.cons₂ _

lemma mem_of_mem_eraseKey {κ α : Type} [DecidableEq κ]
    {l : List (κ × α)} {k : κ} {p : κ × α} (h : p ∈ eraseKey l k) : p ∈ l :=
  (eraseKey_sublist l k).mem h

lemma keysOf_sublist_of_sublist {κ α : Type} {l₁ l₂ : List (κ × α)}
    (h : l₁.Sublist l₂) : (keysOf l₁).Sublist (keysOf l₂) :=
  h.map Prod.fst

lemma ne_key_of_mem_eraseKey {κ α : Type} [DecidableEq κ]
    {l : List (κ × α)} {k : κ} {p : κ × α}
    (hnd : (keysOf l).Nodup) (h : p ∈ eraseKey l k) : p.1 ≠ k := by
  induction l with
  | nil => cases h
  | cons q rest ih =>
    obtain ⟨k', v'⟩ := q
    simp only [keysOf, List.map_cons, List.nodup_cons] at hnd
    by_cases hk : k' = k
    · subst hk
      simp only [eraseKey, if_pos rfl] at h
      intro he
      exact hnd.1 (he ▸ List.mem_map.mpr ⟨p, h, rfl⟩)
    · simp only [eraseKey, if_neg hk] at h
      rcases List.mem_cons.mp h with he | hm
      · subst he; exact hk
      · exact ih hnd.2 hm

lemma perm_cons_eraseKey {κ α : Type} [DecidableEq κ]
    {l : List (κ × α)} {k : κ} {v : α}
    (hnd : (keysOf l).Nodup) (hm : (k, v) ∈ l) :
    l.Perm ((k, v) :: eraseKey l k) := by
  induction l with
  | nil => cases hm
  | cons q rest ih =>
    obtain ⟨k', v'⟩ := q
    simp only [keysOf, List.map_cons, List.nodup_cons] at hnd
    by_cases h : k' = k
    · subst h
      have hv : v' = v := by
        rcases List.mem_cons.mp hm with h1 | h1
        · exact (Prod.mk.injEq _ _ _ _ ▸ h1.symm).2
        · exact absurd (List.mem_map.mpr ⟨(k', v), h1, rfl⟩) hnd.1
      subst hv
      simp only [eraseKey, if_pos rfl]
      exact List.Perm.refl _
    · have hm' : (k, v) ∈ rest := by
        rcases List.mem_cons.mp hm with h1 | h1
        · cases h1; exact absurd rfl h
        · exact h1
      simp only [eraseKey, if_neg h]
      exact ((ih hnd.2 hm').cons _).trans (List.Perm.swap _ _ _)

lemma mem_eraseKey_of_ne {κ α : Type} [DecidableEq κ]
    {l : List (κ × α)} {k : κ} {p : κ × α}
    (hp : p ∈ l) (hne : p.1 ≠ k) : p ∈ eraseKey l k := by
  induction l with
  | nil => cases hp
  | cons q rest ih =>
    obtain ⟨k', v'⟩ := q
    by_cases h : k' = k
    · subst h
      simp only [eraseKey, if_pos rfl]
      rcases List.mem_cons.mp hp with h1 | h1
      · subst h1; exact absurd rfl hne
      · exact h1
    · simp only [eraseKey, if_neg h]
      rcases List.mem_cons.mp hp with h1 | h1
      · exact h1 ▸ List.mem_cons_self _ _
      · exact List.mem_cons_of_mem _ (ih h1)

lemma setKey_of_not_mem {κ α : Type} [DecidableEq κ]
    {m : List (κ × α)} {k : κ} (v : α) (h : k ∉ keysOf m) :
    setKey m k v = m ++ [(k, v)] := by
  induction m with
  | nil => rfl
  | cons p rest ih =>
    obtain ⟨k', v'⟩ := p
    simp only [keysOf, List.map_cons, List.mem_cons] at h
    push_neg at h
    simp only [setKey, if_neg (fun he : k' = k => h.1 he.symm),
      List.cons_append]
    rw [ih (by simpa [keysOf] using h.2)]

lemma keysOf_setKey_nodup {κ α : Type} [DecidableEq κ]
    {m : List (κ × α)} {k : κ} (v : α) (hnd : (keysOf m).Nodup) :
    (keysOf (setKey m k v)).Nodup := by
  by_cases h : k ∈ keysOf m
  · rw [keysOf_setKey_of_mem v h]; exact hnd
  · rw [setKey_of_not_mem v h]
    simp only [keysOf, List.map_append, List.map_cons, List.map_nil]
    rw [List.nodup_append]
    exact ⟨hnd, List.nodup_singleton _, by
      intro x hx hx'
      simp only [List.mem_singleton] at hx'
      exact h (hx' ▸ hx)⟩

lemma pruneLoop_entries_sublist (now : Nat) :
    ∀ (l : List (String × MCEntry)) (st : CacheState),
      (pruneLoop now l st).entries.Sublist st.entries := by
  intro l
  induction l with
  | nil => intro st; exact List.Sublist.refl _
  | cons p rest ih =>
    intro st
    obtain ⟨k, e⟩ := p
    simp only [pruneLoop]
    by_cases h : isExpired e now
    · rw [if_pos h]
      exact (ih _).trans (eraseKey_sublist _ _)
    · rw [if_neg h]
      exact ih st

lemma pruneExpired_entries_sublist (st : CacheState) (now : Nat) :
    (pruneExpired st now).entries.Sublist st.entries :=
  pruneLoop_entries_sublist now st.entries st

lemma pruneExpired_nodup {st : CacheState} (now : Nat)
    (hnd : (keysOf st.entries).Nodup) :
    (keysOf (pruneExpired st now).entries).Nodup :=
  (keysOf_sublist_of_sublist (pruneExpired_entries_sublist st now)).nodup hnd

lemma pruneLoop_no_expired (now : Nat) :
    ∀ (l : List (String × MCEntry)) (st : CacheState),
      (keysOf st.entries).Nodup →
      (∀ q ∈ st.entries, isExpired q.2 now = true → q ∈ l) →
      ∀ p ∈ (pruneLoop now l st).entries, isExpired p.2 now = false := by
  intro l
  induction l with
  | nil =>
    intro st _ hinv p hp
    cases he : isExpired p.2 now
    · rfl
    · exact absurd (hinv p hp he) (List.not_mem_nil _)
  | cons q rest ih =>
    intro st hnd hinv p hp
    obtain ⟨k, e⟩ := q
    simp only [pruneLoop] at hp
    by_cases h : isExpired e now
    · rw [if_pos h] at hp
      refine ih (removeEntry st k e.fileName) ?_ ?_ p hp
      · exact (keysOf_sublist_of_sublist (eraseKey_sublist _ _)).nodup hnd
      · intro q' hq' hexp
        have hq'mem : q' ∈ st.entries := mem_of_mem_eraseKey hq'
        have hne : q'.1 ≠ k := ne_key_of_mem_eraseKey hnd hq'
        rcases List.mem_cons.mp (hinv q' hq'mem hexp) with h1 | h1
        · exact absurd (congrArg Prod.fst h1) hne
        · exact h1
    · rw [if_neg h] at hp
      refine ih st hnd ?_ p hp
      intro q' hq' hexp
      rcases List.mem_cons.mp (hinv q' hq' hexp) with h1 | h1
      · rw [h1] at hexp
        exact absurd hexp (by simp [h])
      · exact h1

lemma pruneExpired_no_expired {st : CacheState} {now : Nat}
    (hnd : (keysOf st.entries).Nodup) :
    ∀ p ∈ (pruneExpired st now).entries, isExpired p.2 now = false :=
  pruneLoop_no_expired now st.entries st hnd (fun _ hq _ => hq)

lemma insertLA_perm (x : String × MCEntry) (l : List (String × MCEntry)) :
    (insertLA x l).Perm (x :: l) := by
  induction l with
  | nil => exact List.Perm.refl _
  | cons y ys ih =>
    simp only [insertLA]
    by_cases h : y.2.lastAccessAtMs ≤ x.2.lastAccessAtMs
    · rw [if_pos h]
      exact (ih.cons y).trans (List.Perm.swap x y ys)
    · rw [if_neg h]

lemma sortLA_perm (l : List (String × MCEntry)) : (sortLA l).Perm l := by
  induction l with
  | nil => exact List.Perm.refl _
  | cons x xs ih =>
    exact (insertLA_perm x (sortLA xs)).trans (ih.cons x)

lemma insertLA_pairwise {x : String × MCEntry} {l : List (String × MCEntry)}
    (h : l.Pairwise (fun a b => a.2.lastAccessAtMs ≤ b.2.lastAccessAtMs)) :
    (insertLA x l).Pairwise
      (fun a b => a.2.lastAccessAtMs ≤ b.2.lastAccessAtMs) := by
  induction l with
  | nil => simp [insertLA]
  | cons y ys ih =>
    simp only [List.pairwise_cons] at h
    simp only [insertLA]
    by_cases hc : y.2.lastAccessAtMs ≤ x.2.lastAccessAtMs
    · rw [if_pos hc]
      rw [List.pairwise_cons]
      refine ⟨?_, ih h.2⟩
      intro z hz
      rcases List.mem_cons.mp ((insertLA_perm x ys).mem_iff.mp hz) with h1 | h1
      · exact h1 ▸ hc
      · exact h.1 z h1
    · rw [if_neg hc]
      have hxy : x.2.lastAccessAtMs ≤ y.2.lastAccessAtMs :=
        Nat.le_of_not_le hc
      rw [List.pairwise_cons]
      refine ⟨?_, List.pairwise_cons.mpr h⟩
      intro z hz
      rcases List.mem_cons.mp hz with h1 | h1
      · exact h1 ▸ hxy
      · exact hxy.trans (h.1 z h1)

lemma sortLA_pairwise (l : List (String × MCEntry)) :
    (sortLA l).Pairwise
      (fun a b => a.2.lastAccessAtMs ≤ b.2.lastAccessAtMs) := by
  induction l with
  | nil => simp [sortLA]
  | cons x xs ih => exact insertLA_pairwise ih

lemma sumSizes_perm {l₁ l₂ : List (String × MCEntry)} (h : l₁.Perm l₂) :
    sumSizes l₁ = sumSizes l₂ := by
  unfold sumSizes
  exact (h.map (fun p => entrySize p.2)).sum_eq

lemma evictLoop_sumSizes_le (maxB : Nat) :
    ∀ (l : List (String × MCEntry)) (st : CacheState) (total : Nat),
      (keysOf st.entries).Nodup → st.entries.Perm l → total = sumSizes l →
      sumSizes (evictLoop maxB l st total).entries ≤ maxB := by
  intro l
  induction l with
  | nil =>
    intro st total hnd hperm htot
    have : st.entries = [] := List.Perm.eq_nil hperm
    simp [evictLoop, sumSizes, this]
  | cons p rest ih =>
    intro st total hnd hperm htot
    obtain ⟨k, e⟩ := p
    simp only [evictLoop]
    by_cases h : total ≤ maxB
    · rw [if_pos h]
      calc sumSizes st.entries = sumSizes ((k, e) :: rest) := sumSizes_perm hperm
        _ = total := htot.symm
        _ ≤ maxB := h
    · rw [if_neg h]
      have hmem : (k, e) ∈ st.entries := hperm.mem_iff.mpr (List.mem_cons_self _ _)
      have hperm' : (removeEntry st k e.fileName).entries.Perm rest := by
        show (eraseKey st.entries k).Perm rest
        exact ((perm_cons_eraseKey hnd hmem).symm.trans hperm).cons_inv
      refine ih (removeEntry st k e.fileName) (total - entrySize e) ?_ hperm' ?_
      · exact (keysOf_sublist_of_sublist (eraseKey_sublist _ _)).nodup hnd
      · have : total = entrySize e + sumSizes rest := by
          rw [htot]; simp [sumSizes]
        rw [this, Nat.add_sub_cancel_left]

lemma keysOf_refreshSizes (st : CacheState) :
    keysOf (refreshSizes st) = keysOf st.entries := by
  simp only [refreshSizes, keysOf, List.map_map]
  apply List.map_congr_left
  intro p _
  by_cases h : p.2.sizeBytes.isSome <;> simp [h]

/-- After `enforceMaxBytes` with a positive finite cap, the total of the
known entry sizes is within the cap, unconditionally. -/
lemma enforceMaxBytes_le {cfg : MCConfig} {st : CacheState}
    (hmax : 0 < cfg.maxBytes) (hnd : (keysOf st.entries).Nodup) :
    sumSizes (enforceMaxBytes cfg st).entries ≤ cfg.maxBytes := by
  unfold enforceMaxBytes
  rw [if_neg (Nat.pos_iff_ne_zero.mp hmax)]
  by_cases hemp : st.entries = []
  · rw [if_pos hemp]
    simp [sumSizes, hemp]
  · rw [if_neg hemp]
    simp only
    by_cases hle : sumSizes (refreshSizes st) ≤ cfg.maxBytes
    · rw [if_pos hle]
      exact hle
    · rw [if_neg hle]
      have hnd' : (keysOf (refreshSizes st)).Nodup := by
        rw [keysOf_refreshSizes]; exact hnd
      refine evictLoop_sumSizes_le cfg.maxBytes (sortLA (refreshSizes st))
        _ _ hnd' ?_ ?_
      · exact (sortLA_perm (refreshSizes st)).symm
      · exact (sumSizes_perm (sortLA_perm (refreshSizes st))).symm

/-- `C1`.  A `put` into a cache with a positive finite byte cap either
rejects an oversized source outright — returning `null` with the index
unchanged apart from the TTL prune that every `put` begins with — or leaves
the index with a total of known entry sizes within `maxBytes`; the eviction
pass considers entries in ascending `lastAccessAtMs` order. -/
theorem mcPut_respects_maxBytes
    (cfg : MCConfig) (st : CacheState) (now : Nat)
    (url filePath : String) (mediaType filename : Option String)
    (res : Option MCEntry) (st' : CacheState) (f : FileData)
    (hmax : 0 < cfg.maxBytes)
    (hnd : (keysOf st.entries).Nodup)
    (hurl : shouldCacheUrl url = true)
    (hstat : (pruneExpired st now).fs filePath = some f)
    (h : mcPut cfg st now url filePath mediaType filename = .ok (res, st')) :
    (cfg.maxBytes < f.size → res = none ∧ st' = pruneExpired st now) ∧
    (f.size ≤ cfg.maxBytes → sumSizes st'.entries ≤ cfg.maxBytes) ∧
    ∀ l : List (String × MCEntry),
      (sortLA l).Pairwise (fun a b => a.2.lastAccessAtMs ≤ b.2.lastAccessAtMs) := by
  unfold mcPut at h
  rw [hurl] at h
  simp only [Bool.not_true, Bool.false_eq_true, if_false] at h
  rw [hstat] at h
  simp only at h
  by_cases hgt : 0 < cfg.maxBytes ∧ cfg.maxBytes < f.size
  · rw [if_pos hgt] at h
    simp only [Except.ok.injEq, Prod.mk.injEq] at h
    refine ⟨fun _ => ⟨h.1.symm, h.2.symm⟩, fun hle => ?_, fun l => sortLA_pairwise l⟩
    exact absurd hgt.2 (Nat.not_lt.mpr hle)
  · rw [if_neg hgt] at h
    simp only [Except.ok.injEq, Prod.mk.injEq] at h
    refine ⟨fun hlt => absurd ⟨hmax, hlt⟩ hgt, fun _ => ?_,
      fun l => sortLA_pairwise l⟩
    rw [← h.2]
    apply enforceMaxBytes_le hmax
    exact keysOf_setKey_nodup _ (pruneExpired_nodup now hnd)

/-- `C5`.  `get` never returns an expired entry: the TTL prune that both
`get` and `put` run first removes from the index every entry with
`expiresAtMs ≤ now`, and the subsequent lookup happens in the pruned
index. -/
theorem mcGet_never_returns_expired
    (cfg : MCConfig) (st : CacheState) (now : Nat) (url : String)
    (e : MCEntry) (st' : CacheState)
    (hnd : (keysOf st.entries).Nodup)
    (h : mcGet cfg st now url = (some e, st')) :
    isExpired e now = false ∧
      ∀ p ∈ (pruneExpired st now).entries, isExpired p.2 now = false := by
  refine ⟨?_, pruneExpired_no_expired hnd⟩
  unfold mcGet at h
  by_cases hurl : shouldCacheUrl url
  · rw [hurl] at h
    simp only [Bool.not_true, Bool.false_eq_true, if_false] at h
    cases hlk : lookupKey (pruneExpired st now).entries (cfg.hashKey url) with
    | none => rw [hlk] at h; simp at h
    | some entry =>
      rw [hlk] at h
      simp only at h
      have hmem := mem_of_lookupKey hlk
      have hexp := pruneExpired_no_expired hnd _ hmem
      cases hfs : (pruneExpired st now).fs entry.fileName with
      | none => rw [hfs] at h; simp at h
      | some file =>
        rw [hfs] at h
        simp only at h
        by_cases h1 : cfg.verify = .vsize ∧ entry.sizeBytes.isSome ∧
            entry.sizeBytes ≠ some file.size
        · rw [if_pos h1] at h; simp at h
        · rw [if_neg h1] at h
          by_cases h2 : cfg.verify = .vhash ∧
              (∃ s, entry.sha256 = some s ∧ s ≠ file.hash)
          · rw [if_pos h2] at h; simp at h
          · rw [if_neg h2] at h
            simp only [Prod.mk.injEq, Option.some.injEq] at h
            rw [← h.1]
            by_cases h3 : cfg.verify = .vhash <;>
              simp only [if_pos, if_neg, h3, if_true, if_false] <;>
              simpa [isExpired] using hexp
  · simp only [hurl] at h
    simp at h

/-- The entry produced by a successful `verify = hash` `get`: stored hash
refreshed to the recomputed one, size refreshed from `stat`, access time
touched. -/
def refreshedEntry (entry : MCEntry) (file : FileData) (now : Nat) : MCEntry :=
  { entry with
    sha256 := some file.hash
    sizeBytes := some file.size
    lastAccessAtMs := now }

def demoEntry : MCEntry :=
  { url := "http://a"
    fileName := "f1"
    sizeBytes := some 3
    sha256 := some "goodhash"
    mediaType := none
    filename := none
    createdAtMs := 0
    lastAccessAtMs := 0
    expiresAtMs := some 50 }

def demoMcCfg : MCConfig :=
  { maxBytes := 10, ttlMs := 0, verify := .vnone, hashKey := fun s => s }

def demoFs : String → Option FileData :=
  fun p =>
    if p = "f1" then some { size := 3, hash := "goodhash" }
    else if p = "src0" then some { size := 8, hash := "srchash" }
    else none

def demoMcSt : CacheState := { entries := [("http://a", demoEntry)], fs := demoFs }

def demoPutOut : Option MCEntry × CacheState :=
  match mcPut demoMcCfg demoMcSt 10 "http://b" "src0" none none with
  | .ok out => out
  | .error _ => (none, demoMcSt)

/-- Witness for `mcPut_respects_maxBytes`: an 8-byte source put next to an
existing 3-byte entry under a 10-byte cap leaves the total within the cap. -/
theorem mcPut_respects_maxBytes_witness :
    sumSizes demoPutOut.2.entries ≤ demoMcCfg.maxBytes := by
  have h := mcPut_respects_maxBytes demoMcCfg demoMcSt 10 "http://b" "src0"
    none none demoPutOut.1 demoPutOut.2 { size := 8, hash := "srchash" }
    (by decide) (by decide) (by decide) (by decide) rfl
  exact h.2.1 (by decide)

def demoGetOut : Option MCEntry × CacheState := mcGet demoMcCfg demoMcSt 10 "http://a"

/-- Witness for `mcGet_never_returns_expired`: the demo `get` returns the
(unexpired) stored entry with its access time touched. -/
theorem mcGet_never_returns_expired_witness :
    demoGetOut.1 = some (refreshedEntry demoEntry
      { size := 3, hash := "goodhash" } 10) ∧
    isExpired (refreshedEntry demoEntry { size := 3, hash := "goodhash" } 10)
      10 = false := by
  refine ⟨by decide, ?_⟩
  have h := mcGet_never_returns_expired demoMcCfg demoMcSt 10 "http://a"
    (refreshedEntry demoEntry { size := 3, hash := "goodhash" } 10)
    demoGetOut.2 (by decide) ?_
  · exact h.1
  · have h1 : demoGetOut.1 = some (refreshedEntry demoEntry
        { size := 3, hash := "goodhash" } 10) := by decide
    calc mcGet demoMcCfg demoMcSt 10 "http://a"
        = (demoGetOut.1, demoGetOut.2) := rfl
      _ = (some (refreshedEntry demoEntry
            { size := 3, hash := "goodhash" } 10), demoGetOut.2) := by rw [h1]

structure SlideImage (α : Type) where
  index : Nat
  timestamp : α
  imagePath : String
  imageVersion : Option Nat
  ocrText : Option String
  ocrConfidence : Option ℚ
deriving DecidableEq

/-- Split on the line-break regex of `cleanOcrText` (`\r\n` or `\n`). -/
def splitLines : List Char → List (List Char)
  | [] => [[]]
  | '\r' :: '\n' :: rest => [] :: splitLines rest
  | '\n' :: rest => [] :: splitLines rest
  | c :: rest =>
    match splitLines rest with
    | [] => [[c]]
    | w :: ws => (c :: w) :: ws

/-- Embeds `cleanOcrText`. -/
def cleanOcrText (text : String) : String :=
  let lines :=
    ((((splitLines text.data).map (fun l => jsTrim (String.mk l))).filter
      (fun line => 2 ≤ line.data.length)).filter
      (fun line => !(decide (20 < line.data.length) &&
        !(line.data.contains ' ')))).filter
      (fun line => line.data.any isAsciiAlnum)
  String.intercalate "\n" lines

/-- Embeds `estimateOcrConfidence` (the alphanumeric ratio clamped to 1). -/
def estimateOcrConfidence (text : String) : ℚ :=
  if text = "" then 0
  else
    let total := text.data.length
    if total = 0 then 0
    else min 1 (((text.data.filter isAsciiAlnum).length : ℚ) / (total : ℚ))

/-- One OCR task of `runOcrOnSlides`: `tesseract` is the subprocess, whose
failure (`none`) is caught and turned into empty text with confidence 0. -/
def ocrSlide {α : Type} (tesseract : String → Option String)
    (s : SlideImage α) : SlideImage α :=
  match tesseract s.imagePath with
  | some text =>
    let cleaned := cleanOcrText text
    { s with
      ocrText := some cleaned
      ocrConfidence := some (estimateOcrConfidence cleaned) }
  | none => { s with ocrText := some "", ocrConfidence := some 0 }

/-- Stable insertion ascending by slide index. -/
def insertIdx {α : Type} (x : SlideImage α) :
    List (SlideImage α) → List (SlideImage α)
  | [] => [x]
  | y :: ys => if y.index ≤ x.index then y :: insertIdx x ys else x :: y :: ys

/-- Stable ascending sort by slide index (the final
`.sort((a, b) => a.index - b.index)` of `runOcrOnSlides`). -/
def sortByIndex {α : Type} : List (SlideImage α) → List (SlideImage α)
  | [] => []
  | x :: xs => insertIdx x (sortByIndex xs)

/-- Embeds `runOcrOnSlides` (concurrency writes each task's result into its
input position, so the pre-sort list is the input-order map). -/
def runOcrOnSlides {α : Type} (tesseract : String → Option String)
    (slides : List (SlideImage α)) : List (SlideImage α) :=
  sortByIndex (slides.map (ocrSlide tesseract))

section SlidesOrder

variable {α : Type} [LinearOrderedAddCommGroup α]

/-- The keep-condition of `applyMinDurationFilter`; `none` models the
initial `-Infinity` accumulator. -/
def farEnough (minDur : α) (last : Option α) (ts : α) : Bool :=
  match last with
  | none => true
  | some t => decide (minDur ≤ ts - t)

/-- The filtering loop of `applyMinDurationFilter` (dropped slides only
lose their image file, which the model does not track). -/
def filterGo (minDur : α) :
    List (SlideImage α) → Option α → List (SlideImage α)
  | [], _ => []
  | s :: rest, last =>
    if farEnough minDur last s.timestamp then
      s :: filterGo minDur rest (some s.timestamp)
    else filterGo minDur rest last

/-- The re-indexing `map((slide, index) => ({...slide, index: index + 1}))`. -/
def reindexFrom {α : Type} (n : Nat) :
    List (SlideImage α) → List (SlideImage α)
  | [] => []
  | s :: rest => { s with index := n } :: reindexFrom (n + 1) rest

/-- Embeds `applyMinDurationFilter`. -/
def applyMinDurationFilter (slides : List (SlideImage α)) (minDur : α)
    (warnings : List String) : List (SlideImage α) × List String :=
  if minDur ≤ 0 then (slides, warnings)
  else
    let filtered := filterGo minDur slides none
    let warnings' :=
      if filtered.length < slides.length then
        warnings ++ ["Filtered " ++ toString (slides.length - filtered.length)
          ++ " slides by min duration"]
      else warnings
    (reindexFrom 1 filtered, warnings')

/-- Embeds the frame-extraction loop of `extractFramesAtTimestamps`: slide
`i` (1-based) is cut at `timestamps[i-1]`, and the thumbnail-refinement pass
may afterwards replace its timestamp with the chosen candidate
(`refinedTs`). -/
def extractFrames (timestamps : List α) (refinedTs : Nat → Option α)
    (framePath : Nat → String) : List (SlideImage α) :=
  timestamps.enum.map (fun p =>
    { index := p.1 + 1
      timestamp :=
        match refinedTs (p.1 + 1) with
        | some t' => t'
        | none => p.2
      imagePath := framePath (p.1 + 1)
      imageVersion := none
      ocrText := none
      ocrConfidence := none })

/-- Embeds `renameSlidesWithTimestamps` (the new file name is a function of
index and timestamp). -/
def renameSlidesWithTimestamps (slides : List (SlideImage α))
    (nameOf : Nat → α → String) : List (SlideImage α) :=
  slides.map (fun s => { s with imagePath := nameOf s.index s.timestamp })

/-- The timestamp-relevant tail of `extractSlidesForSource`: extract frames
(with refinement), apply the min-duration filter, rename, and optionally run
OCR. -/
def slidesPipeline (timestamps : List α) (refinedTs : Nat → Option α)
    (framePath : Nat → String) (nameOf : Nat → α → String) (minDur : α)
    (ocrEnabled : Bool) (tesseract : String → Option String) :
    List (SlideImage α) :=
  let extracted := extractFrames timestamps refinedTs framePath
  let rawSlides := (applyMinDurationFilter extracted minDur []).1
  let renamed := renameSlidesWithTimestamps rawSlides nameOf
  if ocrEnabled then runOcrOnSlides tesseract renamed else renamed

end SlidesOrder

/-! #### Lemmas about the slide sort, filter and re-indexing -/

lemma insertIdx_perm {α : Type} (x : SlideImage α) (l : List (SlideImage α)) :
    (insertIdx x l).Perm (x :: l) := by
  induction l with
  | nil => exact List.Perm.refl _
  | cons y ys ih =>
    simp only [insertIdx]
    by_cases h : y.index ≤ x.index
    · rw [if_pos h]
      exact (ih.cons y).trans (List.Perm.swap x y ys)
    · rw [if_neg h]

lemma sortByIndex_perm {α : Type} (l : List (SlideImage α)) :
    (sortByIndex l).Perm l := by
  induction l with
  | nil => exact List.Perm.refl _
  | cons x xs ih => exact (insertIdx_perm x (sortByIndex xs)).trans (ih.cons x)

lemma insertIdx_pairwise {α : Type} {x : SlideImage α}
    {l : List (SlideImage α)}
    (h : l.Pairwise (fun a b => a.index ≤ b.index)) :
    (insertIdx x l).Pairwise (fun a b => a.index ≤ b.index) := by
  induction l with
  | nil => simp [insertIdx]
  | cons y ys ih =>
    simp only [List.pairwise_cons] at h
    simp only [insertIdx]
    by_cases hc : y.index ≤ x.index
    · rw [if_pos hc]
      rw [List.pairwise_cons]
      refine ⟨?_, ih h.2⟩
      intro z hz
      rcases List.mem_cons.mp ((insertIdx_perm x ys).mem_iff.mp hz) with h1 | h1
      · exact h1 ▸ hc
      · exact h.1 z h1
    · rw [if_neg hc]
      have hxy : x.index ≤ y.index := Nat.le_of_not_le hc
      rw [List.pairwise_cons]
      refine ⟨?_, List.pairwise_cons.mpr h⟩
      intro z hz
      rcases List.mem_cons.mp hz with h1 | h1
      · exact h1 ▸ hxy
      · exact hxy.trans (h.1 z h1)

lemma sortByIndex_pairwise {α : Type} (l : List (SlideImage α)) :
    (sortByIndex l).Pairwise (fun a b => a.index ≤ b.index) := by
  induction l with
  | nil => simp [sortByIndex]
  | cons x xs ih => exact insertIdx_pairwise ih

lemma sortByIndex_eq_of_chain {α : Type} {l : List (SlideImage α)}
    (h : l.Chain' (fun a b => a.index < b.index)) : sortByIndex l = l := by
  induction l with
  | nil => rfl
  | cons x xs ih =>
    rw [List.chain'_cons'] at h
    simp only [sortByIndex]
    rw [ih h.2]
    cases xs with
    | nil => rfl
    | cons y ys =>
      have hxy : x.index < y.index := h.1 y rfl
      simp only [insertIdx]
      rw [if_neg (Nat.not_le.mpr hxy)]

lemma chain'_lt_range' (s n : Nat) :
    List.Chain' (· < ·) (List.range' s n) := by
  cases n with
  | zero => simp
  | succ m =>
    have he : List.range' s (m + 1) = s :: List.range' (s + 1) m := rfl
    rw [he]
    exact List.chain_lt_range' s m Nat.one_pos

lemma filterGo_chain {α : Type} [LinearOrderedAddCommGroup α] (minDur : α) :
    ∀ (l : List (SlideImage α)) (last : Option α),
      List.Chain' (fun a b : α => minDur ≤ b - a)
        ((filterGo minDur l last).map SlideImage.timestamp) ∧
      ∀ t0, last = some t0 →
        ∀ t1 ∈ ((filterGo minDur l last).map SlideImage.timestamp).head?,
          minDur ≤ t1 - t0 := by
  intro l
  induction l with
  | nil =>
    intro last
    exact ⟨List.chain'_nil, fun t0 _ t1 ht1 => by cases ht1⟩
  | cons s rest ih =>
    intro last
    simp only [filterGo]
    by_cases hf : farEnough minDur last s.timestamp
    · rw [if_pos hf]
      simp only [List.map_cons]
      constructor
      · rw [List.chain'_cons']
        exact ⟨fun t1 ht1 => (ih (some s.timestamp)).2 s.timestamp rfl t1 ht1,
          (ih (some s.timestamp)).1⟩
      · intro t0 hlast t1 ht1
        simp only [List.head?_cons, Option.mem_def, Option.some.injEq] at ht1
        subst ht1
        rw [hlast] at hf
        simpa [farEnough] using hf
    · rw [if_neg hf]
      exact ih last

lemma reindexFrom_map_timestamp {α : Type} :
    ∀ (l : List (SlideImage α)) (n : Nat),
      (reindexFrom n l).map SlideImage.timestamp = l.map SlideImage.timestamp := by
  intro l
  induction l with
  | nil => intro n; rfl
  | cons s rest ih =>
    intro n
    simp only [reindexFrom, List.map_cons, ih]

lemma reindexFrom_map_index {α : Type} :
    ∀ (l : List (SlideImage α)) (n : Nat),
      (reindexFrom n l).map SlideImage.index = List.range' n l.length := by
  intro l
  induction l with
  | nil => intro n; rfl
  | cons s rest ih =>
    intro n
    have he : List.range' n (rest.length + 1) = n :: List.range' (n + 1)
      rest.length := rfl
    simp only [reindexFrom, List.map_cons, ih, List.length_cons, he]

lemma reindexFrom_length {α : Type} :
    ∀ (l : List (SlideImage α)) (n : Nat), (reindexFrom n l).length = l.length := by
  intro l
  induction l with
  | nil => intro n; rfl
  | cons s rest ih => intro n; simp [reindexFrom, ih]

lemma ocrSlide_index {α : Type} (tesseract : String → Option String)
    (s : SlideImage α) : (ocrSlide tesseract s).index = s.index := by
  unfold ocrSlide
  cases tesseract s.imagePath <;> rfl

lemma ocrSlide_timestamp {α : Type} (tesseract : String → Option String)
    (s : SlideImage α) : (ocrSlide tesseract s).timestamp = s.timestamp := by
  unfold ocrSlide
  cases tesseract s.imagePath <;> rfl

lemma map_index_map_ocr {α : Type} (tesseract : String → Option String)
    (l : List (SlideImage α)) :
    (l.map (ocrSlide tesseract)).map SlideImage.index =
      l.map SlideImage.index := by
  rw [List.map_map]
  exact List.map_congr_left (fun s _ => ocrSlide_index tesseract s)

lemma map_timestamp_map_ocr {α : Type} (tesseract : String → Option String)
    (l : List (SlideImage α)) :
    (l.map (ocrSlide tesseract)).map SlideImage.timestamp =
      l.map SlideImage.timestamp := by
  rw [List.map_map]
  exact List.map_congr_left (fun s _ => ocrSlide_timestamp tesseract s)

lemma rename_map_index {α : Type} (l : List (SlideImage α))
    (nameOf : Nat → α → String) :
    (renameSlidesWithTimestamps l nameOf).map SlideImage.index =
      l.map SlideImage.index := by
  unfold renameSlidesWithTimestamps
  rw [List.map_map]
  exact List.map_congr_left (fun s _ => rfl)

lemma rename_map_timestamp {α : Type} (l : List (SlideImage α))
    (nameOf : Nat → α → String) :
    (renameSlidesWithTimestamps l nameOf).map SlideImage.timestamp =
      l.map SlideImage.timestamp := by
  unfold renameSlidesWithTimestamps
  rw [List.map_map]
  exact List.map_congr_left (fun s _ => rfl)

/-- The catch branch of a failed per-slide OCR task. -/
def failedOcrSlide {α : Type} (s : SlideImage α) : SlideImage α :=
  { s with ocrText := some "", ocrConfidence := some 0 }

/-- `C10`.  A per-slide OCR subprocess failure never escapes
`runOcrOnSlides`: the returned list is exactly the input slides (each mapped
through the OCR task, a pure total function), sorted ascending by index, and
every slide whose subprocess failed comes back with empty `ocrText` and
`ocrConfidence` 0. -/
theorem runOcrOnSlides_isolates_failures {α : Type}
    (tesseract : String → Option String) (slides : List (SlideImage α)) :
    (runOcrOnSlides tesseract slides).Perm (slides.map (ocrSlide tesseract)) ∧
    (runOcrOnSlides tesseract slides).Pairwise
      (fun a b => a.index ≤ b.index) ∧
    ∀ s ∈ slides, tesseract s.imagePath = none →
      failedOcrSlide s ∈ runOcrOnSlides tesseract slides := by
  refine ⟨sortByIndex_perm _, sortByIndex_pairwise _, ?_⟩
  intro s hs hfail
  have hmem : ocrSlide tesseract s ∈ slides.map (ocrSlide tesseract) :=
    List.mem_map.mpr ⟨s, hs, rfl⟩
  have heq : ocrSlide tesseract s = failedOcrSlide s := by
    unfold ocrSlide failedOcrSlide
    rw [hfail]
  rw [← heq]
  exact (sortByIndex_perm _).mem_iff.mpr hmem

def demoSlideA : SlideImage ℤ :=
  { index := 2, timestamp := 5, imagePath := "b", imageVersion := none,
    ocrText := none, ocrConfidence := none }

def demoSlideB : SlideImage ℤ :=
  { index := 1, timestamp := 3, imagePath := "a", imageVersion := none,
    ocrText := none, ocrConfidence := none }

/-- Witness for `runOcrOnSlides_isolates_failures`: with every subprocess
failing, both slides come back (re-sorted by index) with empty text and
confidence 0. -/
theorem runOcrOnSlides_isolates_failures_witness :
    runOcrOnSlides (fun _ => none) [demoSlideA, demoSlideB] =
        [failedOcrSlide demoSlideB, failedOcrSlide demoSlideA] ∧
      failedOcrSlide demoSlideA ∈
        runOcrOnSlides (fun _ => none) [demoSlideA, demoSlideB] := by
  refine ⟨by decide, ?_⟩
  exact (runOcrOnSlides_isolates_failures (fun _ => none)
    [demoSlideA, demoSlideB]).2.2 demoSlideA (by decide) rfl

/-- `C2`.  For every timestamp list, every thumbnail-refinement outcome and
a positive `minSlideDuration`, the slide list produced by the extraction
tail has 1-based contiguous indices, strictly increasing timestamps, and
successive timestamps at least `minSlideDuration` apart — the min-duration
filter runs after thumbnail refinement, so refinement shifts cannot break
the invariant. -/
theorem slidesPipeline_spacing {α : Type} [LinearOrderedAddCommGroup α]
    (timestamps : List α) (refinedTs : Nat → Option α)
    (framePath : Nat → String) (nameOf : Nat → α → String) (minDur : α)
    (ocrEnabled : Bool) (tesseract : String → Option String)
    (hmin : 0 < minDur) :
    (slidesPipeline timestamps refinedTs framePath nameOf minDur ocrEnabled
        tesseract).map SlideImage.index =
      List.range' 1 (slidesPipeline timestamps refinedTs framePath nameOf
        minDur ocrEnabled tesseract).length ∧
    List.Chain' (fun a b : α => minDur ≤ b - a)
      ((slidesPipeline timestamps refinedTs framePath nameOf minDur ocrEnabled
        tesseract).map SlideImage.timestamp) ∧
    List.Chain' (fun a b : α => a < b)
      ((slidesPipeline timestamps refinedTs framePath nameOf minDur ocrEnabled
        tesseract).map SlideImage.timestamp) := by
  have hnotle : ¬ minDur ≤ 0 := not_le.mpr hmin
  set extracted := extractFrames timestamps refinedTs framePath with hext
  set filtered := filterGo minDur extracted none with hfil
  have hraw : (applyMinDurationFilter extracted minDur []).1 =
      reindexFrom 1 filtered := by
    unfold applyMinDurationFilter
    rw [if_neg hnotle]
  set renamed := renameSlidesWithTimestamps
    (applyMinDurationFilter extracted minDur []).1 nameOf with hren
  have hlenren : renamed.length = filtered.length := by
    rw [hren, hraw]
    unfold renameSlidesWithTimestamps
    rw [List.length_map, reindexFrom_length]
  have hidxren : renamed.map SlideImage.index = List.range' 1 filtered.length := by
    rw [hren, hraw, rename_map_index, reindexFrom_map_index]
  have htsren : renamed.map SlideImage.timestamp =
      filtered.map SlideImage.timestamp := by
    rw [hren, hraw, rename_map_timestamp, reindexFrom_map_timestamp]
  have hchain : List.Chain' (fun a b : α => minDur ≤ b - a)
      (filtered.map SlideImage.timestamp) := (filterGo_chain minDur extracted none).1
  have hout : slidesPipeline timestamps refinedTs framePath nameOf minDur
      ocrEnabled tesseract = if ocrEnabled then
        runOcrOnSlides tesseract renamed else renamed := rfl
  have hsorted : (renamed.map (ocrSlide tesseract)).Chain'
      (fun a b => a.index < b.index) := by
    rw [← List.chain'_map SlideImage.index]
    rw [map_index_map_ocr, hidxren]
    exact chain'_lt_range' 1 filtered.length
  have hocr : runOcrOnSlides tesseract renamed = renamed.map (ocrSlide tesseract) := by
    unfold runOcrOnSlides
    exact sortByIndex_eq_of_chain hsorted
  have houtidx : (slidesPipeline timestamps refinedTs framePath nameOf minDur
      ocrEnabled tesseract).map SlideImage.index =
      List.range' 1 filtered.length := by
    rw [hout]
    cases ocrEnabled
    · simpa using hidxren
    · simp only [if_true]
      rw [hocr, map_index_map_ocr, hidxren]
  have houtts : (slidesPipeline timestamps refinedTs framePath nameOf minDur
      ocrEnabled tesseract).map SlideImage.timestamp =
      filtered.map SlideImage.timestamp := by
    rw [hout]
    cases ocrEnabled
    · simpa using htsren
    · simp only [if_true]
      rw [hocr, map_timestamp_map_ocr, htsren]
  have houtlen : (slidesPipeline timestamps refinedTs framePath nameOf minDur
      ocrEnabled tesseract).length = filtered.length := by
    have := congrArg List.length houtidx
    rwa [List.length_map, List.length_range'] at this
  refine ⟨?_, ?_, ?_⟩
  · rw [houtidx, houtlen]
  · rw [houtts]
    exact hchain
  · rw [houtts]
    exact hchain.imp (fun a b h => sub_pos.mp (lt_of_lt_of_le hmin h))

/-- Witness for `slidesPipeline_spacing`: timestamps 0, 3, 10 with the
second slide refined from 3 to 2 and `minSlideDuration` 5 keep slides at
0 and 10 with indices 1, 2. -/
theorem slidesPipeline_spacing_witness :
    (0 : ℤ) < 5 ∧
      (slidesPipeline ([0, 3, 10] : List ℤ)
          (fun i => if i = 2 then some 2 else none) (fun _ => "p")
          (fun _ _ => "q") 5 true (fun _ => none)).map SlideImage.index =
        [1, 2] ∧
      (slidesPipeline ([0, 3, 10] : List ℤ)
          (fun i => if i = 2 then some 2 else none) (fun _ => "p")
          (fun _ _ => "q") 5 true (fun _ => none)).map SlideImage.timestamp =
        [0, 10] ∧
      List.Chain' (fun a b : ℤ => (5:ℤ) ≤ b - a)
        ((slidesPipeline ([0, 3, 10] : List ℤ)
          (fun i => if i = 2 then some 2 else none) (fun _ => "p")
          (fun _ _ => "q") 5 true (fun _ => none)).map SlideImage.timestamp) := by
  refine ⟨by decide, by decide, by decide, ?_⟩
  exact (slidesPipeline_spacing ([0, 3, 10] : List ℤ)
    (fun i => if i = 2 then some 2 else none) (fun _ => "p")
    (fun _ _ => "q") 5 true (fun _ => none) (by decide)).2.1

/-! ### Input-target resolution (`resolveInputTarget`)

`existsSync`, `path.resolve` and the `file:`-pathname decoding are platform
functions, modelled as the opaque fields of `NodeEnv`.  The WHATWG `URL`
constructor is modelled by `schemeOf`/`urlParses`: parsing succeeds when a
scheme is present, with the special `http`/`https` schemes additionally
requiring a nonempty host. -/

inductive InputTarget
  | url (u : String)
  | file (filePath : String)
deriving DecidableEq

structure NodeEnv where
  fileExists : String → Bool
  resolveFilePath : String → String
  fileUrlPath : String → String

def isAsciiAlpha (c : Char) : Bool :=
  ('a' ≤ c && c ≤ 'z') || ('A' ≤ c && c ≤ 'Z')

def isSchemeChar (c : Char) : Bool :=
  isAsciiAlpha c || ('0' ≤ c && c ≤ '9') || c = '+' || c = '-' || c = '.'

/-- The scheme of a URL string per the WHATWG grammar: an ASCII-letter-led
run of scheme characters followed by a colon, lower-cased. -/
def schemeOf (s : String) : Option String :=
  match s.data with
  | [] => none
  | c :: _ =>
    if isAsciiAlpha c then
      match s.data.drop (s.data.takeWhile isSchemeChar).length with
      | ':' :: _ => some (String.mk ((s.data.takeWhile isSchemeChar).map
          Char.toLower))
      | _ => none
    else none

/-- Whether `new URL(s)` succeeds (model): a scheme is required, and the
special `http`/`https` schemes need a nonempty host — a first character
after the colon and any slashes that is not a query or fragment
delimiter.  `file:` and non-special schemes accept the rest as an opaque
(possibly empty) path. -/
def urlParses (s : String) : Bool :=
  match schemeOf s with
  | none => false
  | some sc =>
    if sc = "http" || sc = "https" then
      match (s.data.drop ((s.data.takeWhile isSchemeChar).length + 1)).dropWhile
          (· = '/') with
      | [] => false
      | c :: _ => !(c = '?' || c = '#')
    else true

def httpPat : List Char := "http://".data

def httpsPat : List Char := "https://".data

/-- JavaScript `String.prototype.lastIndexOf`: the largest index at which
`sub` occurs (as the last element of the filtered index range). -/
def lastIndexOf (sub l : List Char) : Option Nat :=
  ((List.range (l.length + 1)).filter
    (fun i => List.isPrefixOf sub (l.drop i))).getLast?

/-- `Math.max` over the two `lastIndexOf` results (`-1` sentinels become
`none`). -/
def maxIdx : Option Nat → Option Nat → Option Nat
  | none, none => none
  | some x, none => some x
  | none, some y => some y
  | some x, some y => some (max x y)

/-- Embeds `resolveInputTarget`; the fuel argument bounds the recursion
through the embedded-URL rescan, which shortens its input every time, so
the wrapper's `length + 1` fuel never runs out. -/
def resolveGo (env : NodeEnv) : Nat → String → Except String InputTarget
  | 0, _ => .error "out of fuel"
  | n + 1, raw =>
    let normalized := jsTrim raw
    if normalized = "" then .error "Missing input"
    else if env.fileExists (env.resolveFilePath normalized) then
      .ok (.file (env.resolveFilePath normalized))
    else if !urlParses normalized then
      .error ("Invalid URL or file path: " ++ raw)
    else
      let proto := schemeOf normalized
      let embedded :=
        if proto ≠ some "http" ∧ proto ≠ some "https" ∧ proto ≠ some "file"
        then
          maxIdx (lastIndexOf httpsPat normalized.data)
            (lastIndexOf httpPat normalized.data)
        else none
      match embedded with
      | some idx => resolveGo env n (String.mk (normalized.data.drop idx))
      | none =>
        if proto = some "file" then .ok (.file (env.fileUrlPath normalized))
        else if proto ≠ some "http" ∧ proto ≠ some "https" then
          .error "Only HTTP and HTTPS URLs can be summarized"
        else .ok (.url normalized)

def resolveInputTarget (env : NodeEnv) (raw : String) :
    Except String InputTarget :=
  resolveGo env (raw.data.length + 1) raw

instance {ε α : Type} [DecidableEq ε] [DecidableEq α] :
    DecidableEq (Except ε α)
  | .error e₁, .error e₂ =>
    if h : e₁ = e₂ then isTrue (by rw [h])
    else isFalse (by intro hc; cases hc; exact h rfl)
  | .error _, .ok _ => isFalse (by intro hc; cases hc)
  | .ok _, .error _ => isFalse (by intro hc; cases hc)
  | .ok a₁, .ok a₂ =>
    if h : a₁ = a₂ then isTrue (by rw [h])
    else isFalse (by intro hc; cases hc; exact h rfl)

/-! #### Lemmas about trimming, prefixes and the rescan -/

lemma exists_append_of_isPrefixOf {α : Type} [BEq α] [LawfulBEq α] :
    ∀ {l₁ l₂ : List α}, List.isPrefixOf l₁ l₂ = true → ∃ t, l₂ = l₁ ++ t := by
  intro l₁
  induction l₁ with
  | nil => intro l₂ _; exact ⟨l₂, rfl⟩
  | cons a as ih =>
    intro l₂ h
    cases l₂ with
    | nil => simp [List.isPrefixOf] at h
    | cons b bs =>
      simp only [List.isPrefixOf, Bool.and_eq_true, beq_iff_eq] at h
      obtain ⟨t, ht⟩ := ih h.2
      exact ⟨t, by rw [h.1, ht]; rfl⟩

lemma isPrefixOf_append_self {α : Type} [BEq α] [LawfulBEq α] :
    ∀ (l t : List α), List.isPrefixOf l (l ++ t) = true := by
  intro l t
  induction l with
  | nil => simp [List.isPrefixOf]
  | cons a as ih =>
    simp only [List.cons_append, List.isPrefixOf, Bool.and_eq_true]
    exact ⟨beq_self_eq_true a, ih⟩

lemma lastIndexOf_isPrefixOf {sub l : List Char} {idx : Nat}
    (h : lastIndexOf sub l = some idx) :
    List.isPrefixOf sub (l.drop idx) = true := by
  unfold lastIndexOf at h
  have hmem := List.mem_of_mem_getLast? h
  rw [List.mem_filter] at hmem
  exact hmem.2

lemma maxIdx_spec {p1 p2 l : List Char} {idx : Nat}
    (h : maxIdx (lastIndexOf p1 l) (lastIndexOf p2 l) = some idx) :
    List.isPrefixOf p1 (l.drop idx) = true ∨
      List.isPrefixOf p2 (l.drop idx) = true := by
  cases h1 : lastIndexOf p1 l with
  | none =>
    cases h2 : lastIndexOf p2 l with
    | none => rw [h1, h2] at h; cases h
    | some y =>
      rw [h1, h2] at h
      cases h
      exact Or.inr (lastIndexOf_isPrefixOf h2)
  | some x =>
    cases h2 : lastIndexOf p2 l with
    | none =>
      rw [h1, h2] at h
      cases h
      exact Or.inl (lastIndexOf_isPrefixOf h1)
    | some y =>
      rw [h1, h2] at h
      simp only [maxIdx, Option.some.injEq] at h
      rcases Nat.le_total x y with hle | hle
      · rw [← h, Nat.max_eq_right hle]
        exact Or.inr (lastIndexOf_isPrefixOf h2)
      · rw [← h, Nat.max_eq_left hle]
        exact Or.inl (lastIndexOf_isPrefixOf h1)

lemma dropWhile_head_not (p : Char → Bool) :
    ∀ (l : List Char) {c : Char} {cs : List Char},
      l.dropWhile p = c :: cs → p c = false := by
  intro l
  induction l with
  | nil => intro c cs h; cases h
  | cons x xs ih =>
    intro c cs h
    rw [List.dropWhile_cons] at h
    by_cases hp : p x
    · rw [if_pos hp] at h; exact ih h
    · rw [if_neg hp] at h
      cases h
      exact Bool.eq_false_iff.mpr hp

lemma length_dropWhile_le (p : Char → Bool) :
    ∀ (l : List Char), (l.dropWhile p).length ≤ l.length := by
  intro l
  induction l with
  | nil => exact Nat.le_refl _
  | cons x xs ih =>
    rw [List.dropWhile_cons]
    by_cases hp : p x
    · rw [if_pos hp]
      exact ih.trans (Nat.le_succ _)
    · rw [if_neg hp]

lemma jsTrim_length_le (s : String) :
    (jsTrim s).data.length ≤ s.data.length := by
  show (((s.data.dropWhile Char.isWhitespace).reverse.dropWhile
    Char.isWhitespace).reverse).length ≤ _
  rw [List.length_reverse]
  refine (length_dropWhile_le _ _).trans ?_
  rw [List.length_reverse]
  exact length_dropWhile_le _ _

lemma jsTrim_trail (s : String) {c : Char} {cs : List Char}
    (h : (jsTrim s).data.reverse = c :: cs) : Char.isWhitespace c = false := by
  have hdata : (jsTrim s).data = ((s.data.dropWhile
      Char.isWhitespace).reverse.dropWhile Char.isWhitespace).reverse := rfl
  rw [hdata, List.reverse_reverse] at h
  exact dropWhile_head_not _ _ h

lemma jsTrim_of_clean {cl : List Char}
    (hhead : ∀ c cs, cl = c :: cs → Char.isWhitespace c = false)
    (htrail : ∀ c cs, cl.reverse = c :: cs → Char.isWhitespace c = false) :
    jsTrim (String.mk cl) = String.mk cl := by
  show String.mk (((cl.dropWhile Char.isWhitespace).reverse.dropWhile
    Char.isWhitespace).reverse) = String.mk cl
  have h1 : cl.dropWhile Char.isWhitespace = cl := by
    cases hc : cl with
    | nil => rfl
    | cons c cs =>
      rw [List.dropWhile_cons,
        if_neg (by rw [hhead c cs hc]; exact Bool.false_ne_true)]
  rw [h1]
  have h2 : cl.reverse.dropWhile Char.isWhitespace = cl.reverse := by
    cases hc : cl.reverse with
    | nil => rfl
    | cons c cs =>
      rw [List.dropWhile_cons,
        if_neg (by rw [htrail c cs hc]; exact Bool.false_ne_true)]
  rw [h2, List.reverse_reverse]

lemma trail_of_drop {l : List Char} {idx : Nat}
    (htrail : ∀ c cs, l.reverse = c :: cs → Char.isWhitespace c = false) :
    ∀ c cs, (l.drop idx).reverse = c :: cs → Char.isWhitespace c = false := by
  intro c cs h
  rw [List.reverse_drop] at h
  cases hrev : l.reverse with
  | nil => rw [hrev] at h; simp at h
  | cons d ds =>
    rw [hrev] at h
    cases hn : l.length - idx with
    | zero => rw [hn] at h; cases h
    | succ m =>
      rw [hn, List.take_cons (Nat.succ_pos m)] at h
      cases h
      exact htrail c ds hrev

lemma schemeOf_httpsPat (t : List Char) :
    schemeOf (String.mk (httpsPat ++ t)) = some "https" := rfl

lemma schemeOf_httpPat (t : List Char) :
    schemeOf (String.mk (httpPat ++ t)) = some "http" := rfl

/-- A rescanned candidate starts with an `http(s)://` prefix, so its scheme
is special and it never enters the embedded-rescan branch again; its result
does not depend on the remaining fuel. -/
lemma resolveGo_fuel_http (env : NodeEnv) (cl : List Char) (n m : Nat)
    (hpre : (∃ t, cl = httpsPat ++ t) ∨ ∃ t, cl = httpPat ++ t)
    (htrail : ∀ c cs, cl.reverse = c :: cs → Char.isWhitespace c = false) :
    resolveGo env (n + 1) (String.mk cl) = resolveGo env (m + 1) (String.mk cl) := by
  have hhead : ∀ c cs, cl = c :: cs → Char.isWhitespace c = false := by
    intro c cs hc
    rcases hpre with ⟨t, ht⟩ | ⟨t, ht⟩ <;>
      · rw [ht] at hc
        cases hc
        decide
  have htrim := jsTrim_of_clean hhead htrail
  rcases hpre with ⟨t, ht⟩ | ⟨t, ht⟩
  · have hs : schemeOf (String.mk cl) = some "https" := by
      rw [ht]; exact schemeOf_httpsPat t
    simp only [resolveGo, htrim, hs]
    norm_num
  · have hs : schemeOf (String.mk cl) = some "http" := by
      rw [ht]; exact schemeOf_httpPat t
    simp only [resolveGo, htrim, hs]
    norm_num

/-- One step of `resolveGo` on an input whose scheme is foreign (neither
`http`, `https` nor `file`), not an existing file, and URL-parsable: it
either rescans from the last embedded `http(s)://` occurrence or rejects. -/
lemma resolveGo_foreign (env : NodeEnv) (raw sc : String) (n : Nat)
    (hne : jsTrim raw ≠ "")
    (hnof : env.fileExists (env.resolveFilePath (jsTrim raw)) = false)
    (hparse : urlParses (jsTrim raw) = true)
    (hsc : schemeOf (jsTrim raw) = some sc)
    (hother : sc ≠ "http" ∧ sc ≠ "https" ∧ sc ≠ "file") :
    resolveGo env (n + 1) raw =
      match maxIdx (lastIndexOf httpsPat (jsTrim raw).data)
          (lastIndexOf httpPat (jsTrim raw).data) with
      | some idx => resolveGo env n (String.mk ((jsTrim raw).data.drop idx))
      | none => .error "Only HTTP and HTTPS URLs can be summarized" := by
  have hcond : schemeOf (jsTrim raw) ≠ some "http" ∧
      schemeOf (jsTrim raw) ≠ some "https" ∧
      schemeOf (jsTrim raw) ≠ some "file" := by
    rw [hsc]
    refine ⟨?_, ?_, ?_⟩ <;> intro hc <;> injection hc with hc'
    · exact hother.1 hc'
    · exact hother.2.1 hc'
    · exact hother.2.2 hc'
  simp only [resolveGo]
  rw [if_neg hne]
  rw [if_neg (by rw [hnof]; exact Bool.false_ne_true)]
  rw [if_neg (by rw [hparse]; decide)]
  rw [if_pos hcond]
  cases hmi : maxIdx (lastIndexOf httpsPat (jsTrim raw).data)
      (lastIndexOf httpPat (jsTrim raw).data) with
  | some idx => rfl
  | none =>
    simp only
    rw [if_neg hcond.2.2, if_pos ⟨hcond.1, hcond.2.1⟩]

/-- `C7`.  An input that parses as a URL with a scheme other than `http`,
`https` or `file` (and is not an existing file path) is rejected — unless
the text contains an embedded `http://` or `https://`, in which case it is
re-resolved from the later of the two substrings' last occurrences. -/
theorem resolveInputTarget_foreign_scheme (env : NodeEnv) (raw sc : String)
    (hne : jsTrim raw ≠ "")
    (hnof : env.fileExists (env.resolveFilePath (jsTrim raw)) = false)
    (hparse : urlParses (jsTrim raw) = true)
    (hsc : schemeOf (jsTrim raw) = some sc)
    (hother : sc ≠ "http" ∧ sc ≠ "https" ∧ sc ≠ "file") :
    (maxIdx (lastIndexOf httpsPat (jsTrim raw).data)
        (lastIndexOf httpPat (jsTrim raw).data) = none →
      resolveInputTarget env raw =
        .error "Only HTTP and HTTPS URLs can be summarized") ∧
    ∀ idx, maxIdx (lastIndexOf httpsPat (jsTrim raw).data)
        (lastIndexOf httpPat (jsTrim raw).data) = some idx →
      resolveInputTarget env raw =
        resolveInputTarget env (String.mk ((jsTrim raw).data.drop idx)) := by
  constructor
  · intro hnone
    unfold resolveInputTarget
    rw [resolveGo_foreign env raw sc _ hne hnof hparse hsc hother, hnone]
  · intro idx hidx
    unfold resolveInputTarget
    rw [resolveGo_foreign env raw sc _ hne hnof hparse hsc hother, hidx]
    simp only
    have hlen1 : 1 ≤ raw.data.length := by
      by_contra hc
      push_neg at hc
      have h0 : (jsTrim raw).data.length = 0 :=
        Nat.eq_zero_of_le_zero ((jsTrim_length_le raw).trans
          (Nat.lt_succ_iff.mp hc))
      apply hne
      have hdata : (jsTrim raw).data = [] := List.length_eq_zero.mp h0
      calc jsTrim raw = String.mk (jsTrim raw).data := rfl
        _ = String.mk [] := by rw [hdata]
        _ = "" := rfl
    obtain ⟨k, hk⟩ := Nat.exists_eq_add_of_le hlen1
    have hpre : (∃ t, (jsTrim raw).data.drop idx = httpsPat ++ t) ∨
        ∃ t, (jsTrim raw).data.drop idx = httpPat ++ t := by
      rcases maxIdx_spec hidx with h | h
      · exact Or.inl (exists_append_of_isPrefixOf h)
      · exact Or.inr (exists_append_of_isPrefixOf h)
    have htrail : ∀ c cs, ((jsTrim raw).data.drop idx).reverse = c :: cs →
        Char.isWhitespace c = false :=
      trail_of_drop (fun c cs h => jsTrim_trail raw h)
    have hfuel := resolveGo_fuel_http env ((jsTrim raw).data.drop idx) k
      ((String.mk ((jsTrim raw).data.drop idx)).data.length) hpre htrail
    rw [show raw.data.length = k + 1 from by rw [hk]; exact Nat.add_comm 1 k]
    exact hfuel

def demoNodeEnv : NodeEnv :=
  { fileExists := fun _ => false
    resolveFilePath := fun s => s
    fileUrlPath := fun s => s }

/-- Witness for `resolveInputTarget_foreign_scheme`: a `foo:` input with an
embedded `https://` is re-resolved from that occurrence and accepted. -/
theorem resolveInputTarget_foreign_scheme_witness :
    resolveInputTarget demoNodeEnv "foo:https://example.com" =
        resolveInputTarget demoNodeEnv "https://example.com" ∧
      resolveInputTarget demoNodeEnv "https://example.com" =
        .ok (.url "https://example.com") := by
  refine ⟨?_, by decide⟩
  have h := (resolveInputTarget_foreign_scheme demoNodeEnv
    "foo:https://example.com" "foo" (by decide) (by decide) (by decide)
    (by decide) ⟨by decide, by decide, by decide⟩).2 4 (by decide)
  have hs : String.mk (((jsTrim "foo:https://example.com").data).drop 4) =
      "https://example.com" := by decide
  rw [hs] at h
  exact h

/-! ### Daemon `extractOnly` guard -/

inductive SummarizeMode
  | url
  | page
deriving DecidableEq

structure SummarizeBody where
  url : String
  mode : SummarizeMode
  extractOnly : Bool
deriving DecidableEq

structure DaemonResponse where
  status : Nat
  error : Option String
  runStarted : Bool
deriving DecidableEq

/-- Modelled from the spec: the daemon HTTP server (`src/daemon/server.ts`)
is not among the extracted sources — only its test is — so the
`POST /v1/summarize` validation is modelled from the spec's words: the body
carries `mode ∈ {url, page}` and an optional `extractOnly` flag;
`extractOnly` is only valid when `mode=url`, any other combination is
rejected with HTTP 400 (message matching `extractOnly requires mode=url`,
case-insensitively) and no run is started; otherwise a run is accepted. -/
def handleSummarize (body : SummarizeBody) : DaemonResponse :=
  if body.extractOnly ∧ body.mode ≠ SummarizeMode.url then
    { status := 400
      error := some "extractOnly requires mode=url"
      runStarted := false }
  else
    { status := 200, error := none, runStarted := true }

/-- The test's case-insensitive regex `extractOnly requires mode=url`
applied to the response message. -/
def matchesExtractOnlyMessage (s : String) : Bool :=
  listIncludes ("extractonly requires mode=url".data)
    (s.data.map Char.toLower)

/-- `C8`.  A `POST /v1/summarize` body with `extractOnly` set and a mode
other than `url` is rejected with HTTP 400, an error message matching
`extractOnly requires mode=url` case-insensitively, and no run started. -/
theorem handleSummarize_rejects_extractOnly_page (body : SummarizeBody)
    (hx : body.extractOnly = true) (hm : body.mode ≠ SummarizeMode.url) :
    (handleSummarize body).status = 400 ∧
    (∃ msg, (handleSummarize body).error = some msg ∧
      matchesExtractOnlyMessage msg = true) ∧
    (handleSummarize body).runStarted = false := by
  unfold handleSummarize
  rw [if_pos ⟨hx, hm⟩]
  exact ⟨rfl, ⟨"extractOnly requires mode=url", rfl, by decide⟩, rfl⟩

/-! ### Slides cache validation (`slides/store.ts`)

Node's `path` module is modelled on segment lists: an absolute normalized
path is a `List String` of segments; a raw (possibly relative, possibly
containing `.`/`..`/empty segments) path is a `RawPath`.  `path.resolve`
is `normalizePath` against a current working directory; `path.relative`'s
use in `isPathUnderRoot` reduces, for normalized absolute paths, to a
strict-prefix test.  `buildSlidesDirId`'s SHA-1 is the opaque `dirHash`
parameter. -/

structure RawPath where
  absolute : Bool
  segs : List String
deriving DecidableEq

/-- One step of path normalization: empty and `.` segments vanish, `..`
pops (staying at the root when there is nothing to pop), anything else is
appended. -/
def normStep (acc : List String) (seg : String) : List String :=
  if seg = "" ∨ seg = "." then acc
  else if seg = ".." then acc.dropLast
  else acc ++ [seg]

/-- `path.resolve` against a normalized absolute `cwd`. -/
def normalizePath (cwd : List String) (p : RawPath) : List String :=
  (p.segs).foldl normStep (if p.absolute then [] else cwd)

/-- Split a path fragment on slashes (what `path.join` does with a string
argument); empty pieces are later dropped by normalization. -/
def splitSlash (s : String) : List String :=
  (splitOnSep (fun c => c = '/') s.data).map String.mk

/-- Embeds `resolveSlidesDir` (`path.join(outputDir, sourceId)`; the
normalization that `join` performs is deferred to `normalizePath`, through
which every use of the result flows). -/
def resolveSlidesDir (outputDir : RawPath) (sourceId : String) : RawPath :=
  { absolute := outputDir.absolute, segs := outputDir.segs ++ splitSlash sourceId }

/-- Whether a segment begins with the two characters `..` (the string test
`rel.startsWith('..')` performs on the first component of the relative
path). -/
def dotDotPrefix (s : String) : Bool :=
  List.isPrefixOf ['.', '.'] s.data

/-- Whether the first segment of a (relative) segment list begins with
`..`. -/
def headDotDot : List String → Bool
  | [] => false
  | s :: _ => dotDotPrefix s

/-- Embeds `isPathUnderRoot`: for normalized absolute paths,
`path.relative(root, candidate)` is empty iff the paths are equal; as a
string it starts with `..` iff `root` is not a segment prefix of
`candidate` (the relative path then begins with a literal `..` component)
or the first segment of `candidate` below `root` itself begins with the
two characters `..`; and it is never absolute. -/
def isPathUnderRoot (root candidate : List String) : Bool :=
  List.isPrefixOf root candidate && decide (root ≠ candidate) &&
    !headDotDot (candidate.drop root.length)

/-- Embeds `resolveSlideImagePath` (`none` also stands for the falsy empty
image path). -/
def resolveSlideImagePath (cwd : List String) (slidesDir : RawPath)
    (imagePath : Option RawPath) : Option (List String) :=
  match imagePath with
  | none => none
  | some ip =>
    let resolved : RawPath :=
      if ip.absolute then ip
      else { absolute := slidesDir.absolute, segs := slidesDir.segs ++ ip.segs }
    let nDir := normalizePath cwd slidesDir
    let nRes := normalizePath cwd resolved
    if isPathUnderRoot nDir nRes then some nRes else none

inductive SlideSourceKind
  | youtube
  | direct
deriving DecidableEq

structure SlideSource where
  url : String
  kind : SlideSourceKind
  sourceId : String
deriving DecidableEq

structure SlideSettings where
  outputDir : RawPath
  sceneThreshold : ℚ
  maxSlides : Nat
  minDurationSeconds : ℚ
  ocr : Bool
deriving DecidableEq

structure CachedSlide where
  index : Nat
  timestamp : Int
  imagePath : Option RawPath
deriving DecidableEq

structure CachedSlidesResult where
  sourceUrl : String
  sourceKind : SlideSourceKind
  sourceId : String
  slidesDir : Option RawPath
  slidesDirId : Option String
  sceneThreshold : ℚ
  maxSlides : Nat
  minSlideDuration : ℚ
  ocrRequested : Bool
  slides : List CachedSlide
deriving DecidableEq

/-- The JSON-truthiness of an optional string (absent and empty are falsy). -/
def truthyStr : Option String → Bool
  | none => false
  | some s => s ≠ ""

structure SlidesFs where
  isDir : List String → Bool
  isFile : List String → Bool

/-- The per-slide loop of `validateSlidesCache`: resolve each image path
inside the slides directory, stat it, and rewrite the slide to the resolved
path; any failure aborts with `null`. -/
def resolveAllSlides (cwd : List String) (fs : SlidesFs)
    (nDir : List String) : List CachedSlide → Option (List CachedSlide)
  | [] => some []
  | s :: rest =>
    match s.imagePath with
    | none => none
    | some ip =>
      match resolveSlideImagePath cwd { absolute := true, segs := nDir }
          (some ip) with
      | none => none
      | some nRes =>
        if fs.isFile nRes then
          (resolveAllSlides cwd fs nDir rest).map
            (fun tail => { s with
              imagePath := some { absolute := true, segs := nRes } } :: tail)
        else none

/-- Embeds `validateSlidesCache`.  `buildSlidesDirId` normalizes its input
again, which is idempotent, so `dirHash` is applied to the already
normalized directory. -/
def validateSlidesCache (cwd : List String)
    (dirHash : List String → String) (fs : SlidesFs)
    (cached : CachedSlidesResult) (source : SlideSource)
    (settings : SlideSettings) : Option CachedSlidesResult :=
  if cached.sourceId ≠ source.sourceId then none
  else if cached.sourceKind ≠ source.kind then none
  else if cached.sourceUrl ≠ source.url then none
  else
    let nExpected := normalizePath cwd
      (resolveSlidesDir settings.outputDir source.sourceId)
    let nOutput := normalizePath cwd settings.outputDir
    if !isPathUnderRoot nOutput nExpected then none
    else
      match cached.slidesDir with
      | none => none
      | some sd =>
        if normalizePath cwd sd ≠ nExpected then none
        else
          let expectedDirId := dirHash nExpected
          if truthyStr cached.slidesDirId ∧
              cached.slidesDirId ≠ some expectedDirId then none
          else if cached.sceneThreshold ≠ settings.sceneThreshold then none
          else if cached.maxSlides ≠ settings.maxSlides then none
          else if cached.minSlideDuration ≠ settings.minDurationSeconds then
            none
          else if cached.ocrRequested ≠ settings.ocr then none
          else if cached.slides = [] then none
          else if !fs.isDir nExpected then none
          else
            match resolveAllSlides cwd fs nExpected cached.slides with
            | none => none
            | some slides' =>
              some { cached with
                slidesDir := some { absolute := true, segs := nExpected }
                slidesDirId := some (match cached.slidesDirId with
                  | some s => s
                  | none => expectedDirId)
                slides := slides' }

/-- The normalized expected slides directory
`path.resolve(path.join(outputDir, sourceId))`. -/
def expectedSlidesDirSegs (cwd : List String) (settings : SlideSettings)
    (source : SlideSource) : List String :=
  normalizePath cwd (resolveSlidesDir settings.outputDir source.sourceId)

/-- A segment list with no empty, `.` or `..` segments (the shape of every
normalized path). -/
def cleanSegs (l : List String) : Prop :=
  ∀ s ∈ l, s ≠ "" ∧ s ≠ "." ∧ s ≠ ".."

lemma normStep_clean {acc : List String} (hacc : cleanSegs acc) (s : String) :
    cleanSegs (normStep acc s) := by
  unfold normStep
  by_cases h1 : s = "" ∨ s = "."
  · rw [if_pos h1]; exact hacc
  · rw [if_neg h1]
    by_cases h2 : s = ".."
    · rw [if_pos h2]
      intro x hx
      exact hacc x ((List.dropLast_sublist _).subset hx)
    · rw [if_neg h2]
      intro x hx
      rcases List.mem_append.mp hx with hm | hm
      · exact hacc x hm
      · rw [List.mem_singleton.mp hm]
        push_neg at h1
        exact ⟨h1.1, h1.2, h2⟩

lemma foldl_normStep_clean :
    ∀ (l : List String) (acc : List String), cleanSegs acc →
      cleanSegs (l.foldl normStep acc) := by
  intro l
  induction l with
  | nil => intro acc h; exact h
  | cons s rest ih => intro acc h; exact ih _ (normStep_clean h s)

lemma normalizePath_clean (cwd : List String) (p : RawPath)
    (hcwd : cleanSegs cwd) : cleanSegs (normalizePath cwd p) := by
  unfold normalizePath
  apply foldl_normStep_clean
  by_cases h : p.absolute
  · rw [if_pos h]; intro x hx; cases hx
  · rw [if_neg h]; exact hcwd

lemma foldl_normStep_of_clean :
    ∀ (l : List String) (acc : List String), cleanSegs l →
      l.foldl normStep acc = acc ++ l := by
  intro l
  induction l with
  | nil => intro acc _; simp
  | cons s rest ih =>
    intro acc hcl
    have hs := hcl s (List.mem_cons_self _ _)
    have hstep : normStep acc s = acc ++ [s] := by
      unfold normStep
      rw [if_neg (by push_neg; exact ⟨hs.1, hs.2.1⟩), if_neg hs.2.2]
    rw [List.foldl_cons, hstep,
      ih _ (fun x hx => hcl x (List.mem_cons_of_mem _ hx))]
    simp

lemma normalizePath_abs_of_clean (cwd : List String) {l : List String}
    (h : cleanSegs l) :
    normalizePath cwd { absolute := true, segs := l } = l := by
  have h0 : normalizePath cwd { absolute := true, segs := l } =
      l.foldl normStep [] := rfl
  rw [h0, foldl_normStep_of_clean l [] h, List.nil_append]

lemma normalizePath_append_plain (cwd : List String) (p : RawPath)
    {id : String} (hid : id ≠ "" ∧ id ≠ "." ∧ id ≠ "..") :
    normalizePath cwd { absolute := p.absolute, segs := p.segs ++ [id] } =
      normalizePath cwd p ++ [id] := by
  have h0 : normalizePath cwd { absolute := p.absolute, segs := p.segs ++ [id] } =
      List.foldl normStep (if p.absolute then [] else cwd) (p.segs ++ [id]) := rfl
  have h1 : normalizePath cwd p =
      List.foldl normStep (if p.absolute then [] else cwd) p.segs := rfl
  rw [h0, List.foldl_append, h1, List.foldl_cons, List.foldl_nil]
  unfold normStep
  rw [if_neg (by push_neg; exact ⟨hid.1, hid.2.1⟩), if_neg hid.2.2]

lemma isPathUnderRoot_append (root : List String) {id : String}
    (hdd : dotDotPrefix id = false) :
    isPathUnderRoot root (root ++ [id]) = true := by
  unfold isPathUnderRoot
  rw [isPrefixOf_append_self, List.drop_left]
  have hne : root ≠ root ++ [id] := by
    intro h
    have := congrArg List.length h
    simp at this
  simp [headDotDot, hne, hdd]

lemma strict_of_isPathUnderRoot {root cand : List String}
    (h : isPathUnderRoot root cand = true) :
    List.isPrefixOf root cand = true ∧ root ≠ cand := by
  unfold isPathUnderRoot at h
  simp only [Bool.and_eq_true, decide_eq_true_eq] at h
  exact ⟨h.1.1, h.1.2⟩

lemma resolveAllSlides_isSome_iff (cwd : List String) (fs : SlidesFs)
    (nDir : List String) :
    ∀ slides : List CachedSlide,
      (resolveAllSlides cwd fs nDir slides).isSome = true ↔
        ∀ sl ∈ slides, ∃ ip nRes, sl.imagePath = some ip ∧
          resolveSlideImagePath cwd { absolute := true, segs := nDir }
            (some ip) = some nRes ∧
          fs.isFile nRes = true := by
  intro slides
  induction slides with
  | nil => simp [resolveAllSlides]
  | cons s rest ih =>
    cases hip : s.imagePath with
    | none =>
      simp only [resolveAllSlides, hip]
      constructor
      · intro h; simp at h
      · intro h
        obtain ⟨ip, _, hip', _⟩ := h s (List.mem_cons_self _ _)
        rw [hip] at hip'
        cases hip'
    | some ip =>
      simp only [resolveAllSlides, hip]
      cases hres : resolveSlideImagePath cwd
          { absolute := true, segs := nDir } (some ip) with
      | none =>
        constructor
        · intro h; simp at h
        · intro h
          obtain ⟨ip', nRes, hip', hres', _⟩ := h s (List.mem_cons_self _ _)
          rw [hip] at hip'
          injection hip' with he
          subst he
          rw [hres] at hres'
          cases hres'
      | some nRes =>
        dsimp only
        by_cases hf : fs.isFile nRes = true
        · rw [if_pos hf]
          constructor
          · intro h
            intro sl hsl
            rcases List.mem_cons.mp hsl with he | hm
            · subst he
              exact ⟨ip, nRes, hip, hres, hf⟩
            · have hrest : (resolveAllSlides cwd fs nDir rest).isSome = true := by
                cases hr : resolveAllSlides cwd fs nDir rest with
                | none => rw [hr] at h; simp at h
                | some t => rfl
              exact (ih.mp hrest) sl hm
          · intro h
            have hrest := ih.mpr (fun sl hm => h sl (List.mem_cons_of_mem _ hm))
            cases hr : resolveAllSlides cwd fs nDir rest with
            | none => rw [hr] at hrest; simp at hrest
            | some t => simp [hr]
        · rw [if_neg hf]
          constructor
          · intro h; simp at h
          · intro h
            obtain ⟨ip', nRes', hip', hres', hf'⟩ :=
              h s (List.mem_cons_self _ _)
            rw [hip] at hip'
            injection hip' with he
            subst he
            rw [hres] at hres'
            injection hres' with he'
            subst he'
            exact absurd hf' hf

lemma resolveSlideImagePath_under {cwd nDir : List String}
    (hclean : cleanSegs nDir) {ip : RawPath} {nRes : List String}
    (h : resolveSlideImagePath cwd { absolute := true, segs := nDir }
      (some ip) = some nRes) :
    isPathUnderRoot nDir nRes = true := by
  simp only [resolveSlideImagePath] at h
  rw [normalizePath_abs_of_clean cwd hclean] at h
  have hgen : ∀ r : List String,
      (if isPathUnderRoot nDir r = true then some r else none) = some nRes →
        isPathUnderRoot nDir nRes = true := by
    intro r hr
    by_cases hu : isPathUnderRoot nDir r = true
    · rw [if_pos hu] at hr
      injection hr with he
      rw [he] at hu
      exact hu
    · rw [if_neg hu] at hr
      exact Option.noConfusion hr
  exact hgen _ h

/-- C3: `validateSlidesCache` acceptance characterized.  The claim's clause
"its slidesDirId matches the hash of that directory" is corrected: the code
only compares `slidesDirId` when it is present and non-empty (truthy), so a
manifest with an absent or empty `slidesDirId` is also accepted (and the
hash is filled in on the way out, while an empty string is kept, since
`'' ?? x` is `''`).  Stated for a normalized working directory, a source
id that is a single plain path segment not beginning with `..`, and a
filesystem in which every strict ancestor of a file is a directory (which
makes the code's extra `stat(slidesDir).isDirectory()` check redundant
rather than a further deviation from the claim). -/
theorem validateSlidesCache_characterization
    (cwd : List String) (dirHash : List String → String) (fs : SlidesFs)
    (cached : CachedSlidesResult) (source : SlideSource)
    (settings : SlideSettings)
    (hcwd : cleanSegs cwd)
    (hid : splitSlash source.sourceId = [source.sourceId] ∧
      source.sourceId ≠ "" ∧ source.sourceId ≠ "." ∧ source.sourceId ≠ ".." ∧
      dotDotPrefix source.sourceId = false)
    (hcoh : ∀ p, fs.isFile p = true → ∀ q, List.isPrefixOf q p = true →
      q ≠ p → fs.isDir q = true) :
    (validateSlidesCache cwd dirHash fs cached source settings).isSome = true ↔
      (cached.sourceId = source.sourceId ∧
       cached.sourceKind = source.kind ∧
       cached.sourceUrl = source.url ∧
       (∃ sd, cached.slidesDir = some sd ∧
         normalizePath cwd sd = expectedSlidesDirSegs cwd settings source) ∧
       (cached.slidesDirId = none ∨ cached.slidesDirId = some "" ∨
         cached.slidesDirId =
           some (dirHash (expectedSlidesDirSegs cwd settings source))) ∧
       cached.sceneThreshold = settings.sceneThreshold ∧
       cached.maxSlides = settings.maxSlides ∧
       cached.minSlideDuration = settings.minDurationSeconds ∧
       cached.ocrRequested = settings.ocr ∧
       cached.slides ≠ [] ∧
       ∀ sl ∈ cached.slides, ∃ ip nRes, sl.imagePath = some ip ∧
         resolveSlideImagePath cwd
           { absolute := true, segs := expectedSlidesDirSegs cwd settings source }
           (some ip) = some nRes ∧
         fs.isFile nRes = true) := by
  have hE : normalizePath cwd
      (resolveSlidesDir settings.outputDir source.sourceId) =
      expectedSlidesDirSegs cwd settings source := rfl
  have hexp : expectedSlidesDirSegs cwd settings source =
      normalizePath cwd settings.outputDir ++ [source.sourceId] := by
    unfold expectedSlidesDirSegs resolveSlidesDir
    rw [hid.1]
    exact normalizePath_append_plain cwd settings.outputDir
      ⟨hid.2.1, hid.2.2.1, hid.2.2.2.1⟩
  have hcleanE : cleanSegs (expectedSlidesDirSegs cwd settings source) := by
    unfold expectedSlidesDirSegs
    exact normalizePath_clean cwd _ hcwd
  have hunder : isPathUnderRoot (normalizePath cwd settings.outputDir)
      (expectedSlidesDirSegs cwd settings source) = true := by
    rw [hexp]
    exact isPathUnderRoot_append _ hid.2.2.2.2
  have hnu : ¬((!isPathUnderRoot (normalizePath cwd settings.outputDir)
      (expectedSlidesDirSegs cwd settings source)) = true) := by
    rw [hunder]
    simp
  constructor
  · intro h
    simp only [validateSlidesCache] at h
    rw [hE] at h
    by_cases h1 : cached.sourceId = source.sourceId
    case neg => rw [if_pos h1] at h; simp at h
    rw [if_neg (not_not_intro h1)] at h
    by_cases h2 : cached.sourceKind = source.kind
    case neg => rw [if_pos h2] at h; simp at h
    rw [if_neg (not_not_intro h2)] at h
    by_cases h3 : cached.sourceUrl = source.url
    case neg => rw [if_pos h3] at h; simp at h
    rw [if_neg (not_not_intro h3)] at h
    rw [if_neg hnu] at h
    cases hsd : cached.slidesDir with
    | none => rw [hsd] at h; simp at h
    | some sd =>
      rw [hsd] at h
      dsimp only at h
      by_cases h4 : normalizePath cwd sd = expectedSlidesDirSegs cwd settings source
      case neg => rw [if_pos h4] at h; simp at h
      rw [if_neg (not_not_intro h4)] at h
      by_cases h5 : truthyStr cached.slidesDirId = true ∧
        cached.slidesDirId ≠
          some (dirHash (expectedSlidesDirSegs cwd settings source))
      case pos => rw [if_pos h5] at h; simp at h
      rw [if_neg h5] at h
      by_cases h6 : cached.sceneThreshold = settings.sceneThreshold
      case neg => rw [if_pos h6] at h; simp at h
      rw [if_neg (not_not_intro h6)] at h
      by_cases h7 : cached.maxSlides = settings.maxSlides
      case neg => rw [if_pos h7] at h; simp at h
      rw [if_neg (not_not_intro h7)] at h
      by_cases h8 : cached.minSlideDuration = settings.minDurationSeconds
      case neg => rw [if_pos h8] at h; simp at h
      rw [if_neg (not_not_intro h8)] at h
      by_cases h9 : cached.ocrRequested = settings.ocr
      case neg => rw [if_pos h9] at h; simp at h
      rw [if_neg (not_not_intro h9)] at h
      by_cases h10 : cached.slides = []
      case pos => rw [if_pos h10] at h; simp at h
      rw [if_neg h10] at h
      cases hdir : fs.isDir (expectedSlidesDirSegs cwd settings source) with
      | false => rw [hdir] at h; simp at h
      | true =>
        rw [hdir] at h
        rw [if_neg (by simp)] at h
        cases hra : resolveAllSlides cwd fs
            (expectedSlidesDirSegs cwd settings source) cached.slides with
        | none => rw [hra] at h; simp at h
        | some slides' =>
          have hall := (resolveAllSlides_isSome_iff cwd fs _ cached.slides).mp
            (by rw [hra]; rfl)
          refine ⟨h1, h2, h3, ⟨sd, rfl, h4⟩, ?_, h6, h7, h8, h9, h10, hall⟩
          rcases hdid : cached.slidesDirId with _ | s
          · exact Or.inl rfl
          · by_cases hs : s = ""
            · exact Or.inr (Or.inl (by rw [hs]))
            · push_neg at h5
              rw [hdid] at h5
              exact Or.inr (Or.inr (h5 (by simp [truthyStr, hs])))
  · intro hr
    obtain ⟨h1, h2, h3, ⟨sd, hsd, h4⟩, h5, h6, h7, h8, h9, h10, h11⟩ := hr
    simp only [validateSlidesCache]
    rw [hE]
    rw [if_neg (not_not_intro h1), if_neg (not_not_intro h2),
      if_neg (not_not_intro h3), if_neg hnu]
    rw [hsd]
    dsimp only
    rw [if_neg (not_not_intro h4)]
    have hc5 : ¬(truthyStr cached.slidesDirId = true ∧
        cached.slidesDirId ≠
          some (dirHash (expectedSlidesDirSegs cwd settings source))) := by
      rcases h5 with h5 | h5 | h5
      · intro hc; rw [h5] at hc; exact absurd hc.1 (by simp [truthyStr])
      · intro hc; rw [h5] at hc; exact absurd hc.1 (by simp [truthyStr])
      · intro hc; exact hc.2 h5
    rw [if_neg hc5, if_neg (not_not_intro h6), if_neg (not_not_intro h7),
      if_neg (not_not_intro h8), if_neg (not_not_intro h9), if_neg h10]
    have hdir : fs.isDir (expectedSlidesDirSegs cwd settings source) = true := by
      obtain ⟨sl, hsl⟩ := List.exists_mem_of_ne_nil cached.slides h10
      obtain ⟨ip, nRes, _, hres, hfile⟩ := h11 sl hsl
      have hu := resolveSlideImagePath_under hcleanE hres
      obtain ⟨hpre, hne⟩ := strict_of_isPathUnderRoot hu
      exact hcoh nRes hfile _ hpre hne
    rw [hdir]
    rw [if_neg (by simp)]
    have hsome : (resolveAllSlides cwd fs
        (expectedSlidesDirSegs cwd settings source) cached.slides).isSome =
        true :=
      (resolveAllSlides_isSome_iff cwd fs _ cached.slides).mpr h11
    cases hra : resolveAllSlides cwd fs
        (expectedSlidesDirSegs cwd settings source) cached.slides with
    | none => rw [hra] at hsome; simp at hsome
    | some slides' => rfl

def demoDirHash : List String → String := fun _ => "deadbeef"

def demoSlidesFs : SlidesFs :=
  { isDir := fun _ => true
    isFile := fun p => p = ["out", "vid", "s1.png"] }

def demoSlideSource : SlideSource :=
  { url := "https://example.com/v", kind := .direct, sourceId := "vid" }

def demoSlideSettings : SlideSettings :=
  { outputDir := { absolute := true, segs := ["out"] }
    sceneThreshold := 0
    maxSlides := 16
    minDurationSeconds := 0
    ocr := false }

def demoCachedSlide : CachedSlide :=
  { index := 1
    timestamp := 0
    imagePath := some { absolute := false, segs := ["s1.png"] } }

def demoCachedNoId : CachedSlidesResult :=
  { sourceUrl := "https://example.com/v"
    sourceKind := .direct
    sourceId := "vid"
    slidesDir := some { absolute := true, segs := ["out", "vid"] }
    slidesDirId := none
    sceneThreshold := 0
    maxSlides := 16
    minSlideDuration := 0
    ocrRequested := false
    slides := [demoCachedSlide] }

def demoCachedWithId : CachedSlidesResult :=
  { demoCachedNoId with slidesDirId := some "deadbeef" }

/-- Counterexample to C3 as stated: a manifest whose `slidesDirId` is
absent (and hence does not match the hash of the slides directory) is
still accepted by `validateSlidesCache`, because the code only compares a
truthy `slidesDirId`. -/
theorem validateSlidesCache_claim_cex :
    (validateSlidesCache [] demoDirHash demoSlidesFs demoCachedNoId
      demoSlideSource demoSlideSettings).isSome = true ∧
      demoCachedNoId.slidesDirId ≠
        some (demoDirHash
          (expectedSlidesDirSegs [] demoSlideSettings demoSlideSource)) := by
  decide

/-- Witness for `validateSlidesCache_characterization`: a fully matching
manifest (hash included) is accepted. -/
theorem validateSlidesCache_characterization_witness :
    (validateSlidesCache [] demoDirHash demoSlidesFs demoCachedWithId
      demoSlideSource demoSlideSettings).isSome = true := by
  refine (validateSlidesCache_characterization [] demoDirHash demoSlidesFs
    demoCachedWithId demoSlideSource demoSlideSettings ?_ ?_ ?_).mpr ?_
  · intro s hs
    cases hs
  · exact ⟨by decide, by decide, by decide, by decide, by decide⟩
  · intro p _ q _ _
    rfl
  · refine ⟨rfl, rfl, rfl,
      ⟨{ absolute := true, segs := ["out", "vid"] }, rfl, by decide⟩,
      Or.inr (Or.inr (by decide)), rfl, rfl, rfl, rfl, by decide, ?_⟩
    intro sl hsl
    have hone := List.mem_singleton.mp hsl
    subst hone
    exact ⟨{ absolute := false, segs := ["s1.png"] },
      ["out", "vid", "s1.png"], rfl, by decide, by decide⟩

def demoBody : SummarizeBody :=
  { url := "https://example.com", mode := .page, extractOnly := true }

/-- Witness for `handleSummarize_rejects_extractOnly_page`: the test's
request with `mode: page` and `extractOnly: true`. -/
theorem handleSummarize_rejects_extractOnly_page_witness :
    (handleSummarize demoBody).status = 400 ∧
      (handleSummarize demoBody).runStarted = false := by
  have h := handleSummarize_rejects_extractOnly_page demoBody rfl (by decide)
  exact ⟨h.1, h.2.2⟩

end Summarize
